import Mathlib

/-!
# Verification of the GitIngester repository collector (src/src/ingest.js)

Shallow embedding of the collector: the URL parser of the constructor, the
tree builder (`_generateTree`), the content serializer (`_generateContent`,
`_isBinaryFile`), and the file extractor (`_getFilesContent`), together with
proofs settling the frozen claims about them.

Modelling conventions:
* JavaScript strings are Lean `String`s (lists of characters); character-level
  operations work on `String.data`.
* The remote repository is an inductive value: every `Item` carries the result
  the remote fetch for it would produce (`Except`/`Option` with `none`/`error`
  meaning the fetch fails), so the strictly sequential traversal becomes pure
  recursion.
* `Buffer.from(x, 'base64').toString('utf-8')` is an arbitrary parameter
  `dec : String → String`: no claim depends on the particulars of base64.
* JS object key enumeration (`Object.entries`) lists canonical array-index
  keys first in ascending numeric order, then the other keys in insertion
  order, per ECMA-262 OrdinaryOwnPropertyKeys; `orderEntries` models this.
* `String.prototype.localeCompare` under the default (ICU root) locale of a
  stock Node build is modelled for ASCII data: primary comparison is
  case-insensitive (letters compare by their lowercase forms, after all
  non-letters), ties are broken by case with lowercase before uppercase.
-/

set_option maxHeartbeats 1000000
set_option maxRecDepth 10000
set_option linter.unusedTactic false

namespace GitIngest

/-! ## String utilities modelling the JS builtins used by ingest.js -/

/-- Characters removed by `String.prototype.trim` (the ones relevant to this
development: ASCII whitespace, NBSP and BOM). -/
def jsWhitespace (c : Char) : Bool :=
  c = ' ' || c = '\t' || c = '\n' || c = '\r' || c = '\x0b' || c = '\x0c' ||
  c = '\u00A0' || c = '\uFEFF'

/-- `trim` on character lists: drop whitespace from both ends. -/
def trimList (l : List Char) : List Char :=
  ((l.dropWhile jsWhitespace).reverse.dropWhile jsWhitespace).reverse

/-- Model of `String.prototype.trim`. -/
def jsTrim (s : String) : String := (trimList s.data).asString

/-- Model of `String.prototype.endsWith`. -/
def endsWithStr (s suffix : String) : Bool := suffix.data.isSuffixOf s.data

/-- Model of `String.prototype.split(sep)` for a one-character separator, on
character lists. -/
def splitOnChar (sep : Char) : List Char → List (List Char)
  | [] => [[]]
  | c :: t =>
    let r := splitOnChar sep t
    if c = sep then [] :: r
    else
      match r with
      | h :: rs => (c :: h) :: rs
      | [] => [[c]]

/-- Model of `String.prototype.split('/')` on character lists. -/
def splitSlash : List Char → List (List Char) := splitOnChar '/'

/-- `path.split('/').pop()`: the final segment of a path. -/
def basename (p : String) : String := ((splitSlash p.data).getLastD []).asString

/-- Model of `'s'.repeat(n)`. -/
def strRepeat (s : String) (n : Nat) : String := String.join (List.replicate n s)

/-- The fifty-`=` delimiter line `'='.repeat(50)`. -/
def eqLine : String := (List.replicate 50 '=').asString

/-! ## The binary-extension classifier `_isBinaryFile` -/

/-- The fixed extension deny-list of `_isBinaryFile`. -/
def binaryExtensions : List String :=
  [".png", ".jpg", ".jpeg", ".gif", ".bmp", ".ico", ".webp",
   ".mp3", ".mp4", ".wav", ".ogg", ".avi", ".mov", ".flv",
   ".zip", ".tar", ".gz", ".rar", ".7z",
   ".exe", ".dll", ".so", ".dylib",
   ".pdf", ".doc", ".docx", ".xls", ".xlsx", ".ppt", ".pptx"]

/-- The suffix of a character list starting at its last `'.'`, if any
(`filename.substring(filename.lastIndexOf('.'))`; `lastIndexOf` returning
`-1` makes `substring` yield the whole string, hence the `Option`). -/
def lastDotSuffix : List Char → Option (List Char)
  | [] => none
  | c :: t =>
    match lastDotSuffix t with
    | some s => some s
    | none => if c = '.' then some (c :: t) else none

/-- ASCII lowercasing, as `String.toLowerCase` behaves on ASCII; character
by character over the data list.  JS `toLowerCase` agrees with ASCII
lowercasing on every input as far as membership in the ASCII-only deny-list
below is concerned. -/
def toLowerAscii (l : List Char) : List Char := l.map Char.toLower

/-- `_isBinaryFile`: extension (lowercased) membership in the deny-list. -/
def isBinaryFile (filename : String) : Bool :=
  let ext := (toLowerAscii ((lastDotSuffix filename.data).getD filename.data)).asString
  binaryExtensions.contains ext

/-! ## Model of `localeCompare` and the sort comparator of `_generateTree` -/

/-- Primary collation weight of an ASCII character under the ICU root
collation: all non-letters (by code point) precede letters, and letters
compare case-insensitively by their lowercase form. -/
def primaryWeight (c : Char) : Nat :=
  if c.isAlpha then 4096 + c.toLower.toNat else c.toNat

/-- Tertiary (case) collation weight: lowercase before uppercase. -/
def tertiaryWeight (c : Char) : Nat :=
  if c.isUpper then 1 else 0

/-- Lexicographic comparison of weight sequences. -/
def cmpNatList : List Nat → List Nat → Ordering
  | [], [] => .eq
  | [], _ :: _ => .lt
  | _ :: _, [] => .gt
  | a :: as, b :: bs =>
    if a < b then .lt else if b < a then .gt else cmpNatList as bs

/-- Model of `a.localeCompare(b)` under Node's default (ICU root) locale,
for ASCII data: compare the full primary weight sequences, then break ties
with the case (tertiary) weight sequences. -/
def localeCompare (a b : String) : Int :=
  match cmpNatList (a.data.map primaryWeight) (b.data.map primaryWeight) with
  | .lt => -1
  | .gt => 1
  | .eq =>
    match cmpNatList (a.data.map tertiaryWeight) (b.data.map tertiaryWeight) with
    | .lt => -1
    | .gt => 1
    | .eq => 0

/-! ## The remote repository as data: directory entries -/

/-- One GitHub contents-listing entry, carrying the outcome the remote fetch
for it would produce: for a file, the base64 body of
`repos.getContent` (or the error message of a failed call); for a
directory, its children listing (or `none` for a failed call). -/
inductive Item where
  | file (name : String) (size : Nat) (fetchRes : Except String String)
  | dir (name : String) (fetchRes : Option (List Item))

def Item.name : Item → String
  | .file n _ _ => n
  | .dir n _ => n

def Item.isDir : Item → Bool
  | .file .. => false
  | .dir .. => true

/-- The sort callback of `_generateTree`: directories first, then
`localeCompare` on names. -/
def entryCmp (a b : Item) : Int :=
  if a.isDir && !b.isDir then -1
  else if !a.isDir && b.isDir then 1
  else localeCompare a.name b.name

def entryLE (a b : Item) : Prop := entryCmp a b ≤ 0

instance : DecidableRel entryLE := fun _ _ => Int.decLe _ _

/-- `[...contents].sort(cmp)`: a stable sort by the comparator.  JS
`Array.prototype.sort` is stable, so for the (consistent) comparator above
it produces the same list as insertion sort. -/
def sortEntries (items : List Item) : List Item := items.insertionSort entryLE

/-- `path ? `${path}/${name}` : name` -/
def childPath (path name : String) : String :=
  if path = "" then name else path ++ "/" ++ name

/-- `path ? '  '.repeat(path.split('/').filter(Boolean).length) : ''` -/
def indentOf (path : String) : String :=
  if path = "" then ""
  else strRepeat "  " (((splitSlash path.data).filter (· ≠ [])).length)

/-! ## The Tree Builder `_generateTree` -/

/-- The loop body of `_generateTree` over the sorted listing: a `📁` line
followed by the recursive subtree (or the warning line if the subdirectory
fetch failed) for directories, a `📄` line for files.  Recursion into a
subdirectory re-enters `_generateTree`, i.e. sorts the children first. -/
def treeLoop : List Item → String → String
  | [], _ => ""
  | item :: rest, path =>
    let indent := indentOf path
    (match item with
     | .file n _ _ => indent ++ "📄 " ++ n ++ "\n"
     | .dir n none =>
       indent ++ "📁 " ++ n ++ "/\n" ++
       indent ++ "  ⚠️ Error loading directory contents\n"
     | .dir n (some children) =>
       indent ++ "📁 " ++ n ++ "/\n" ++
       treeLoop (sortEntries children) (childPath path n)) ++
    treeLoop rest path
  termination_by items _ => sizeOf items
  decreasing_by
  all_goals first
    | (simp; try omega
       done)
    | (simp only [sortEntries]
       rw [(List.perm_insertionSort entryLE children).sizeOf_eq_sizeOf]
       simp; try omega
       done)

/-- `_generateTree(contents, path)`: sort directories-first /
`localeCompare`-alphabetical, then render each entry. -/
def generateTree (contents : List Item) (path : String) : String :=
  treeLoop (sortEntries contents) path

/-! ## The Content Serializer `_generateContent` -/

/-- The three-line section header `'='.repeat(50) + '\n' + 'File: ' + path +
'\n' + '='.repeat(50) + '\n'`. -/
def sectionHeader (p : String) : String :=
  eqLine ++ "\n" ++ "File: " ++ p ++ "\n" ++ eqLine ++ "\n"

/-- `_generateContent(contents, path)`, also returning the list of file
paths whose bodies the serializer fetched (in call order), so that claims
about which remote body fetches are performed can be stated.  Entries are
processed in listing order (no sort); a failed subdirectory fetch is
silently skipped. -/
def generateContent (dec : String → String) : List Item → String → String × List String
  | [], _ => ("", [])
  | item :: rest, path =>
    let head : String × List String :=
      match item with
      | .file n size fr =>
        let ipath := childPath path n
        if isBinaryFile n || size > 1000000 then
          (sectionHeader ipath ++
           "[Binary or large file: " ++ toString size ++ " bytes]\n\n", [])
        else
          match fr with
          | .ok c => (sectionHeader ipath ++ dec c ++ "\n\n", [ipath])
          | .error msg =>
            (sectionHeader ipath ++ "[Error loading file: " ++ msg ++ "]\n\n", [ipath])
      | .dir _ none => ("", [])
      | .dir n (some children) => generateContent dec children (childPath path n)
    let tail := generateContent dec rest path
    (head.1 ++ tail.1, head.2 ++ tail.2)
  termination_by items _ => sizeOf items
  decreasing_by
  all_goals (simp; try omega
             done)

/-- The (path, emitted body line(s)) pairs of the sections `_generateContent`
emits, in emission order; mirrors `generateContent` exactly. -/
def sectionsList (dec : String → String) : List Item → String → List (String × String)
  | [], _ => []
  | item :: rest, path =>
    (match item with
     | .file n size fr =>
       let ipath := childPath path n
       if isBinaryFile n || size > 1000000 then
         [(ipath, "[Binary or large file: " ++ toString size ++ " bytes]")]
       else
         match fr with
         | .ok c => [(ipath, dec c)]
         | .error msg => [(ipath, "[Error loading file: " ++ msg ++ "]")]
     | .dir _ none => []
     | .dir n (some children) => sectionsList dec children (childPath path n)) ++
    sectionsList dec rest path
  termination_by items _ => sizeOf items
  decreasing_by
  all_goals (simp; try omega
             done)

/-- Rendering a section list as the serializer's flat blob. -/
def renderChunks : List (String × String) → String
  | [] => ""
  | (p, b) :: rest => sectionHeader p ++ b ++ "\n\n" ++ renderChunks rest

/-- Spec-side observation: the full paths of the files a depth-first,
listing-order traversal serializes (directories with failed fetches
skipped), independent of any string rendering. -/
def dfsFilePaths : List Item → String → List String
  | [], _ => []
  | item :: rest, path =>
    (match item with
     | .file n _ _ => [childPath path n]
     | .dir _ none => []
     | .dir n (some children) => dfsFilePaths children (childPath path n)) ++
    dfsFilePaths rest path
  termination_by items _ => sizeOf items
  decreasing_by
  all_goals (simp; try omega
             done)

/-! ## The File Extractor `_getFilesContent`

The extractor re-parses the blob with the global regex
`/={50}\nFile: ([^\n]+)\n={50}/g`; each match yields the (trimmed) recorded
name, and the section body runs from the end of the match to the next
occurrence of `'='.repeat(50) + '\nFile:'` (`indexOf`), trimmed. -/

/-- The fifty `=` characters. -/
def eq50 : List Char := List.replicate 50 '='

/-- The characters of `'File: '` (with the trailing space, as in the regex). -/
def fileTag : List Char := 'F' :: 'i' :: 'l' :: 'e' :: ':' :: ' ' :: []

/-- The search key of the `indexOf` call: `'='.repeat(50) + '\nFile:'`. -/
def sepKey : List Char := eq50 ++ '\n' :: 'F' :: 'i' :: 'l' :: 'e' :: ':' :: []

/-- If `pre` is a prefix of `cs`, the remainder after it; otherwise `none`. -/
def stripPrefixChars (pre cs : List Char) : Option (List Char) :=
  if pre.isPrefixOf cs then some (cs.drop pre.length) else none

/-- Split off the (possibly empty) first line: the characters before the
first `'\n'`, and the characters after that `'\n'`; `none` if there is no
`'\n'` at all. -/
def splitLine (cs : List Char) : Option (List Char × List Char) :=
  match cs.dropWhile (· ≠ '\n') with
  | '\n' :: rest => some (cs.takeWhile (· ≠ '\n'), rest)
  | _ => none

/-- Try to match the header regex `={50}\nFile: ([^\n]+)\n={50}` at the very
start of `cs`.  On success return the captured name — trimmed, as the code
does `match[1].trim()` — and the remainder of the input after the match
(the regex `lastIndex`, i.e. right after the second `=` run: the greedy
`[^\n]+` with the forced `\n={50}` continuation admits no other split). -/
def matchHeaderAt (cs : List Char) : Option (String × List Char) :=
  (stripPrefixChars (eq50 ++ ['\n']) cs).bind fun r1 =>
  (stripPrefixChars fileTag r1).bind fun r2 =>
  (splitLine r2).bind fun lr =>
  if lr.1.isEmpty then none
  else
    (stripPrefixChars eq50 lr.2).bind fun r4 =>
    some (jsTrim lr.1.asString, r4)

/-- `contentStr.indexOf(pat, startPos)` as a splitter: the characters of `cs`
strictly before the first occurrence of `pat` (all of `cs` if `pat` does not
occur). -/
def takeUntilOcc (pat : List Char) : List Char → List Char
  | [] => []
  | c :: t => if pat.isPrefixOf (c :: t) then [] else c :: takeUntilOcc pat t

/-- The regex `exec` loop: scan for successive header matches; for each one,
record the trimmed name and the trimmed text reaching to the next
occurrence of the `indexOf` key (or the end of the blob). -/
def parseScan (cs : List Char) : List (String × String) :=
  match h : matchHeaderAt cs with
  | some (nm, rest) =>
    (nm, jsTrim (takeUntilOcc sepKey rest).asString) :: parseScan rest
  | none =>
    match cs with
    | [] => []
    | _ :: t => parseScan t
  termination_by cs.length
  decreasing_by
  · -- a header match consumes at least the 108 header characters
    have hs : ∀ (pre cs' r : List Char), stripPrefixChars pre cs' = some r →
        r.length + pre.length = cs'.length := by
      intro pre cs' r h'
      unfold stripPrefixChars at h'
      split at h'
      · rename_i hp
        cases h'
        have := (List.isPrefixOf_iff_prefix.mp hp).length_le
        simp [List.length_drop]
        omega
      · cases h'
    have hl : ∀ (cs' line r : List Char), splitLine cs' = some (line, r) →
        r.length < cs'.length := by
      intro cs' line r h'
      unfold splitLine at h'
      split at h'
      · rename_i rest' heq
        have hr : r = rest' := by cases h'; rfl
        subst hr
        have h1 : r.length + 1 = ('\n' :: r : List Char).length := by simp
        have h2 : ('\n' :: r : List Char).length ≤ cs'.length := by
          rw [← heq]; exact (List.dropWhile_sublist _).length_le
        omega
      · cases h'
    unfold matchHeaderAt at h
    simp only [Option.bind_eq_some] at h
    obtain ⟨r1, h1, r2, h2, lr, h3, h⟩ := h
    split at h
    · cases h
    · simp only [Option.bind_eq_some] at h
      obtain ⟨r4, h4, heq⟩ := h
      have hr : rest = r4 := by cases heq; rfl
      subst hr
      have e1 := hs _ _ _ h1
      have e2 := hs _ _ _ h2
      have e3 : lr.2.length < r2.length := hl _ _ _ (by rw [h3])
      have e4 := hs _ _ _ h4
      simp [eq50, fileTag] at e1 e2 e4
      omega
  · simp

/-- All sections of a content blob, as (recorded name, body) pairs. -/
def parseSections (blob : String) : List (String × String) := parseScan blob.data

/-- The match test of the extractor:
`path === filename || basename === filename || path.endsWith('/' + filename)`
(`filename` being the recorded section name, `basename` the final segment of
the requested path). -/
def matchRule (path filename : String) : Bool :=
  path == filename || basename path == filename ||
    endsWithStr path ("/" ++ filename)

/-- `result = {}; for (const path of filePaths) result[path] = null;`
An object keyed by the requested paths holds one slot per distinct path, in
first-insertion order. -/
def dedupFirst : List String → List String
  | [] => []
  | p :: t => p :: dedupFirst (t.filter (· ≠ p))
  termination_by l => l.length
  decreasing_by
  simp only [List.length_cons]
  have := List.length_filter_le (· ≠ p) t
  omega

def initResult (filePaths : List String) : List (String × Option String) :=
  (dedupFirst filePaths).map (fun p => (p, none))

/-- One iteration of the `while` loop: a parsed section assigns its body to
every requested path it matches (later sections overwrite earlier ones). -/
def applySection (sec : String × String) (res : List (String × Option String)) :
    List (String × Option String) :=
  res.map (fun e => if matchRule e.1 sec.1 then (e.1, some sec.2) else e)

/-- The object state after the whole scan loop. -/
def buildResult (secs : List (String × String)) (filePaths : List String) :
    List (String × Option String) :=
  secs.foldl (fun r s => applySection s r) (initResult filePaths)

/-- Decimal value of a digit string. -/
def digitsVal (l : List Char) : Nat :=
  l.foldl (fun acc c => acc * 10 + (c.toNat - 48)) 0

/-- Is `s` a canonical array-index property key (ECMA-262): the decimal
representation, without leading zeros, of an integer below 2^32 - 1? -/
def isArrayIndex (s : String) : Bool :=
  !s.data.isEmpty && s.data.all (·.isDigit) &&
    (s == "0" || s.data.headD ' ' != '0') &&
    (digitsVal s.data < 4294967295)

/-- Numeric value of an array-index key. -/
def keyVal (e : String × Option String) : Nat := digitsVal e.1.data

def keyValLE (a b : String × Option String) : Prop := keyVal a ≤ keyVal b

instance : DecidableRel keyValLE := fun _ _ => Nat.decLe _ _

/-- `Object.entries(result)`: canonical array-index keys first in ascending
numeric order, then the remaining keys in insertion order. -/
def orderEntries (res : List (String × Option String)) :
    List (String × Option String) :=
  (res.filter (fun e => isArrayIndex e.1)).insertionSort keyValLE ++
    res.filter (fun e => !isArrayIndex e.1)

/-- The final concatenation loop: skip unmatched (`null`) entries, separate
consecutive emitted sections by a blank line, and re-wrap each body under a
header that names the requested path. -/
def renderEntries (entries : List (String × Option String)) : String :=
  entries.foldl
    (fun acc e =>
      match e.2 with
      | none => acc
      | some c => (if acc ≠ "" then acc ++ "\n\n" else acc) ++ sectionHeader e.1 ++ c)
    ""

/-- `_getFilesContent`'s core on a present, non-empty content blob: parse the
sections, match them against the requested paths, render the matches, and
fall back to the sentinel when the concatenation is empty. -/
def getFilesContent (content : String) (filePaths : List String) : String :=
  let r := renderEntries (orderEntries (buildResult (parseSections content) filePaths))
  if r = "" then "None of the requested files were found" else r

/-! ## The `GitIngester` instance: constructor and accessors -/

/-- Try to match the regex `github\.com\/([^\/]+)\/([^\/]+)` at the start of
`cs`: the literal `github.com/`, a non-empty run without `/`, a `/`, and a
non-empty run without `/` (greediness of `[^\/]+` admits no other split). -/
def parseOwnerRepoAt (cs : List Char) : Option (String × String) :=
  (stripPrefixChars ("github.com/".data) cs).bind fun r1 =>
  let owner := r1.takeWhile (· ≠ '/')
  if owner.isEmpty then none
  else
    match r1.dropWhile (· ≠ '/') with
    | '/' :: r2 =>
      let repo := r2.takeWhile (· ≠ '/')
      if repo.isEmpty then none else some (owner.asString, repo.asString)
    | _ => none

/-- `url.match(/github\.com\/([^\/]+)\/([^\/]+)/)`: the leftmost match. -/
def searchOwnerRepo : List Char → Option (String × String)
  | [] => none
  | c :: t =>
    match parseOwnerRepoAt (c :: t) with
    | some r => some r
    | none => searchOwnerRepo t

/-- The mutable instance state of a `GitIngester`. -/
structure Ingester where
  url : String
  branch : Option String
  owner : String
  repo : String
  summaryRaw : Option String
  tree : Option String
  content : Option String

/-- The constructor: parse owner/repo from the URL (throwing
`'Invalid GitHub URL format'` if the regex does not match), extend the URL
with `/tree/<branch>` when a branch is given, and leave summary, tree and
content unset (`null`). -/
def mkIngester (url : String) (branch : Option String) : Except String Ingester :=
  match searchOwnerRepo url.data with
  | some (owner, repo) =>
    .ok { url := match branch with
                 | some b => url ++ "/tree/" ++ b
                 | none => url
          branch := branch
          owner := owner
          repo := repo
          summaryRaw := none
          tree := none
          content := none }
  | none => .error "Invalid GitHub URL format"

/-- `getSummary()`: the raw summary, or the placeholder before a fetch. -/
def getSummary (g : Ingester) : String :=
  match g.summaryRaw with
  | some s => s
  | none => "Summary not available"

/-- `getTree()`: `this.tree || 'Tree structure not available'` (JS `||`
also replaces an empty string). -/
def getTree (g : Ingester) : String :=
  match g.tree with
  | some t => if t = "" then "Tree structure not available" else t
  | none => "Tree structure not available"

/-- `_getFilesContent(filePaths)` including the `!this.content` guard. -/
def getFilesContentOf (g : Ingester) (filePaths : List String) : String :=
  match g.content with
  | some c => if c = "" then "Content not available" else getFilesContent c filePaths
  | none => "Content not available"

/-- `getContent(filePaths = null)`. -/
def getContent (g : Ingester) (filePaths : Option (List String)) : String :=
  match filePaths with
  | none =>
    match g.content with
    | some c => if c = "" then "Content not available" else c
    | none => "Content not available"
  | some ps => getFilesContentOf g ps

/-! ## Spec-side predicates and observation functions -/

/-- Length of the maximal run of `'='` at the head of `l`. -/
def eqPrefixLen : List Char → Nat
  | [] => 0
  | c :: t => if c = '=' then eqPrefixLen t + 1 else 0

/-- `l` contains no run of fifty consecutive `'='` characters: no suffix of
`l` starts with fifty `'='`. -/
def noEq50Run : List Char → Bool
  | [] => true
  | c :: t => decide (eqPrefixLen (c :: t) < 50) && noEq50Run t

/-- A string that survives the extractor's re-parse verbatim as a section
name: nonempty, free of newlines, and with no JS whitespace at either end
(so that `trim` keeps it unchanged). -/
def cleanName (p : String) : Bool :=
  !p.data.isEmpty && p.data.all (fun c => c != '\n') &&
  !jsWhitespace (p.data.headD ' ') && !jsWhitespace (p.data.getLastD ' ')

/-- All fetches succeed, and every entry is round-trip friendly: file and
directory names are clean section-name material without `/`, every file is
neither binary-classified nor over the size threshold, and every decoded
body is free of fifty-`=` runs. -/
def goodEntries (dec : String → String) : List Item → Bool
  | [] => true
  | item :: rest =>
    (match item with
     | .file n size fr =>
       cleanName n && !n.data.contains '/' && !isBinaryFile n &&
       decide (size ≤ 1000000) &&
       (match fr with
        | .ok c => noEq50Run (dec c).data
        | .error _ => false)
     | .dir n fr =>
       cleanName n && !n.data.contains '/' &&
       (match fr with
        | some children => goodEntries dec children
        | none => false)) &&
    goodEntries dec rest
  termination_by items => sizeOf items
  decreasing_by
  · simp; try omega
    done
  · simp; try omega
    done

/-- The value the extractor's scan loop leaves for a requested path: starting
from `v`, each section whose recorded name the path matches overwrites it
with that section's body. -/
def matchFold (p : String) (v : Option String) (secs : List (String × String)) :
    Option String :=
  secs.foldl (fun acc s => if matchRule p s.1 then some s.2 else acc) v

/-- The extraction result as the specification describes it: one slot per
distinct requested path in first-occurrence request order, each matched slot
re-wrapped under a header naming the requested path, blank-line separated,
with the sentinel for an all-miss. -/
def extractSpec (blob : String) (filePaths : List String) : String :=
  let r := (dedupFirst filePaths).foldl
    (fun acc p =>
      match matchFold p none (parseSections blob) with
      | none => acc
      | some b => (if acc ≠ "" then acc ++ "\n\n" else acc) ++ sectionHeader p ++ b)
    ""
  if r = "" then "None of the requested files were found" else r

/-- The file names rendered on `📄` lines of a tree text, in line order. -/
def treeFileNames (t : String) : List String :=
  (splitOnChar '\n' t.data).filterMap (fun l =>
    let l' := l.dropWhile (· = ' ')
    if ("📄 ".data).isPrefixOf l' then some ((l'.drop ("📄 ".data).length).asString)
    else none)

/-! # Proof development

## Basic list and string lemmas -/

theorem takeWhile_append_all {p : Char → Bool} {l₁ : List Char} (l₂ : List Char)
    (h : ∀ c ∈ l₁, p c = true) :
    (l₁ ++ l₂).takeWhile p = l₁ ++ l₂.takeWhile p := by
  induction l₁ with
  | nil => simp
  | cons c t ih =>
    have hc : p c = true := h c (by simp)
    simp only [List.cons_append, List.takeWhile_cons, hc, if_true]
    rw [ih (fun d hd => h d (by simp [hd]))]

theorem dropWhile_append_all {p : Char → Bool} {l₁ : List Char} (l₂ : List Char)
    (h : ∀ c ∈ l₁, p c = true) :
    (l₁ ++ l₂).dropWhile p = l₂.dropWhile p := by
  induction l₁ with
  | nil => simp
  | cons c t ih =>
    have hc : p c = true := h c (by simp)
    simp only [List.cons_append, List.dropWhile_cons, hc, if_true]
    exact ih (fun d hd => h d (by simp [hd]))

theorem stripPrefixChars_self_append (pre rest : List Char) :
    stripPrefixChars pre (pre ++ rest) = some rest := by
  unfold stripPrefixChars
  rw [if_pos (List.isPrefixOf_iff_prefix.mpr (List.prefix_append pre rest))]
  rw [List.drop_left]

theorem isPrefixOf_of_append_isPrefixOf {p q z : List Char}
    (h : (p ++ q).isPrefixOf z = true) : p.isPrefixOf z = true := by
  rw [List.isPrefixOf_iff_prefix] at h ⊢
  exact (List.prefix_append p q).trans h

theorem headD_append_of_ne_nil {l r : List Char} (d : Char) (h : l ≠ []) :
    (l ++ r).headD d = l.headD d := by
  cases l with
  | nil => exact absurd rfl h
  | cons c t => rfl

theorem getLastD_append_of_ne_nil {l r : List Char} (d : Char) (h : r ≠ []) :
    (l ++ r).getLastD d = r.getLastD d := by
  cases r with
  | nil => exact absurd rfl h
  | cons c t =>
    rw [List.getLastD_eq_getLast?, List.getLastD_eq_getLast?,
      List.getLast?_append_of_ne_nil _ (by simp : (c :: t : List Char) ≠ [])]

/-! ## `trim` lemmas -/

theorem trimList_eq_self {l : List Char} (hh : jsWhitespace (l.headD ' ') = false)
    (hl : jsWhitespace (l.getLastD ' ') = false) (hne : l ≠ []) :
    trimList l = l := by
  unfold trimList
  cases l with
  | nil => exact absurd rfl hne
  | cons c t =>
    have hc : jsWhitespace c = false := hh
    rw [List.dropWhile_cons, hc]
    simp only [Bool.false_eq_true, if_false]
    have hrev : (c :: t).reverse ≠ [] := by simp
    cases hr : (c :: t).reverse with
    | nil => exact absurd hr hrev
    | cons d u =>
      have hd : d = (c :: t).getLastD ' ' := by
        have := List.head?_reverse (c :: t)
        rw [hr] at this
        simp only [List.head?_cons] at this
        rw [List.getLastD_eq_getLast?, ← this]
        rfl
      rw [List.dropWhile_cons]
      have hdw : jsWhitespace d = false := by rw [hd]; exact hl
      rw [hdw]
      simp only [Bool.false_eq_true, if_false]
      rw [← hr, List.reverse_reverse]

theorem trimList_cons_ws {c : Char} {l : List Char} (h : jsWhitespace c = true) :
    trimList (c :: l) = trimList l := by
  unfold trimList
  rw [List.dropWhile_cons, h]
  simp

theorem dropWhile_eq_nil_of_all {p : Char → Bool} {l : List Char}
    (h : ∀ c ∈ l, p c = true) : l.dropWhile p = [] := by
  have := @dropWhile_append_all p l [] h
  simpa using this

theorem trimList_append_ws {l r : List Char} (h : ∀ c ∈ r, jsWhitespace c = true) :
    trimList (l ++ r) = trimList l := by
  unfold trimList
  rw [List.dropWhile_append]
  by_cases he : (l.dropWhile jsWhitespace).isEmpty
  · rw [if_pos he]
    rw [dropWhile_eq_nil_of_all h]
    rw [List.isEmpty_iff] at he
    rw [he]
  · rw [if_neg he]
    rw [List.reverse_append]
    rw [dropWhile_append_all _ (fun c hc => h c (by simpa using hc))]

/-! ## `=`-run lemmas -/

theorem replicate_isPrefixOf_iff (n : Nat) (l : List Char) :
    (List.replicate n '=').isPrefixOf l = true ↔ n ≤ eqPrefixLen l := by
  induction n generalizing l with
  | zero => simp [List.isPrefixOf]
  | succ m ih =>
    cases l with
    | nil => simp [List.replicate_succ, List.isPrefixOf, eqPrefixLen]
    | cons c t =>
      rw [List.replicate_succ]
      show (('=' == c) && (List.replicate m '=').isPrefixOf t) = true ↔ _
      unfold eqPrefixLen
      by_cases hc : c = '='
      · subst hc
        simp [ih]
        try omega
        done
      · have : ('=' == c) = false := by simp [Ne.symm hc]
        rw [this]
        simp [hc]

theorem eq50_isPrefixOf_iff (l : List Char) :
    eq50.isPrefixOf l = true ↔ 50 ≤ eqPrefixLen l :=
  replicate_isPrefixOf_iff 50 l

theorem eqPrefixLen_append_newline (x y : List Char) :
    eqPrefixLen (x ++ '\n' :: y) = eqPrefixLen x := by
  induction x with
  | nil => simp [eqPrefixLen]
  | cons c t ih =>
    unfold eqPrefixLen
    by_cases hc : c = '='
    · simp [hc, ih]
    · simp [hc]

theorem noEq50Run_drop {l : List Char} (h : noEq50Run l = true) (i : Nat) :
    eqPrefixLen (l.drop i) < 50 := by
  induction l generalizing i with
  | nil => simp [eqPrefixLen]
  | cons c t ih =>
    unfold noEq50Run at h
    simp only [Bool.and_eq_true, decide_eq_true_eq] at h
    cases i with
    | zero => exact h.1
    | succ j => exact ih h.2 j

/-! ## Equations and no-match lemmas for the scan loop -/

theorem matchHeaderAt_none_of_low_run {cs : List Char} (h : eqPrefixLen cs < 50) :
    matchHeaderAt cs = none := by
  unfold matchHeaderAt stripPrefixChars
  rw [if_neg]
  · rfl
  · intro hp
    have := isPrefixOf_of_append_isPrefixOf (p := eq50) (q := ['\n']) hp
    rw [eq50_isPrefixOf_iff] at this
    omega

theorem matchHeaderAt_nil : matchHeaderAt [] = none :=
  matchHeaderAt_none_of_low_run (by simp [eqPrefixLen])

theorem parseScan_nil : parseScan [] = [] := by
  rw [parseScan.eq_def]
  split
  · rename_i nm rest heq
    rw [matchHeaderAt_nil] at heq; cases heq
  · rfl

theorem parseScan_cons_none {c : Char} {t : List Char}
    (h : matchHeaderAt (c :: t) = none) : parseScan (c :: t) = parseScan t := by
  rw [parseScan.eq_def]
  split
  · rename_i nm rest heq
    rw [h] at heq; cases heq
  · rfl

theorem parseScan_some {cs : List Char} {nm : String} {rest : List Char}
    (h : matchHeaderAt cs = some (nm, rest)) :
    parseScan cs = (nm, jsTrim (takeUntilOcc sepKey rest).asString) :: parseScan rest := by
  rw [parseScan.eq_def]
  split
  · rename_i nm' rest' heq
    rw [h] at heq
    cases heq
    rfl
  · rename_i heq
    rw [h] at heq; cases heq

theorem parseScan_skip {w suf : List Char}
    (h : ∀ i < w.length, matchHeaderAt (w.drop i ++ suf) = none) :
    parseScan (w ++ suf) = parseScan suf := by
  induction w with
  | nil => rfl
  | cons c t ih =>
    have h0 := h 0 (by simp)
    simp only [List.drop_zero, List.cons_append] at h0
    show parseScan (c :: (t ++ suf)) = parseScan suf
    rw [parseScan_cons_none h0]
    exact ih (fun i hi => by
      have := h (i + 1) (by simp; omega)
      simpa using this)

theorem takeUntilOcc_wrap {pat w suf : List Char}
    (h : ∀ i < w.length, pat.isPrefixOf (w.drop i ++ suf) = false)
    (hsuf : suf = [] ∨ pat.isPrefixOf suf = true) :
    takeUntilOcc pat (w ++ suf) = w := by
  induction w with
  | nil =>
    rcases hsuf with h' | h'
    · rw [h']; rfl
    · cases suf with
      | nil => rfl
      | cons c t =>
        show takeUntilOcc pat (c :: t) = []
        unfold takeUntilOcc
        rw [if_pos h']
  | cons c t ih =>
    show takeUntilOcc pat (c :: (t ++ suf)) = c :: t
    unfold takeUntilOcc
    rw [if_neg]
    · rw [ih (fun i hi => by
        have := h (i + 1) (by simp; omega)
        simpa using this)]
    · have := h 0 (by simp)
      simp only [List.drop_zero, List.cons_append] at this
      simp [this]

/-! ## Lemmas about header matches at a section boundary -/

theorem eqPrefixLen_wrap_drop_lt {b : List Char} (hb : noEq50Run b = true)
    {i : Nat} (hi : i < ('\n' :: (b ++ ['\n', '\n'])).length) (suf : List Char) :
    eqPrefixLen ((('\n' :: (b ++ ['\n', '\n'])).drop i) ++ suf) < 50 := by
  cases i with
  | zero => simp [eqPrefixLen]
  | succ j =>
    simp only [List.drop_succ_cons]
    rw [List.drop_append_eq_append_drop]
    by_cases hj : j ≤ b.length
    · have h2 : (['\n', '\n'] : List Char).drop (j - b.length) = ['\n', '\n'] := by
        have hz : j - b.length = 0 := by omega
        rw [hz]
        rfl
      rw [h2]
      have hassoc : b.drop j ++ ['\n', '\n'] ++ suf = b.drop j ++ '\n' :: ('\n' :: suf) := by
        simp
      rw [hassoc, eqPrefixLen_append_newline]
      exact noEq50Run_drop hb j
    · have hb2 : b.drop j = [] := List.drop_eq_nil_of_le (by omega)
      rw [hb2]
      simp only [List.nil_append]
      have hlen : j - b.length = 1 := by
        simp only [List.length_cons, List.length_append, List.length_cons,
          List.length_nil] at hi
        omega
      rw [hlen]
      simp [eqPrefixLen]

theorem no_match_in_wrap {b : List Char} (hb : noEq50Run b = true)
    {i : Nat} (hi : i < ('\n' :: (b ++ ['\n', '\n'])).length) (suf : List Char) :
    matchHeaderAt ((('\n' :: (b ++ ['\n', '\n'])).drop i) ++ suf) = none :=
  matchHeaderAt_none_of_low_run (eqPrefixLen_wrap_drop_lt hb hi suf)

theorem sepKey_not_prefix_in_wrap {b : List Char} (hb : noEq50Run b = true)
    {i : Nat} (hi : i < ('\n' :: (b ++ ['\n', '\n'])).length) (suf : List Char) :
    sepKey.isPrefixOf ((('\n' :: (b ++ ['\n', '\n'])).drop i) ++ suf) = false := by
  by_contra hcon
  rw [Bool.not_eq_false] at hcon
  have h1 : eq50.isPrefixOf ((('\n' :: (b ++ ['\n', '\n'])).drop i) ++ suf) = true :=
    isPrefixOf_of_append_isPrefixOf (p := eq50) (q := '\n' :: 'F' :: 'i' :: 'l' :: 'e' :: ':' :: []) hcon
  rw [eq50_isPrefixOf_iff] at h1
  have := eqPrefixLen_wrap_drop_lt hb hi suf
  omega

theorem cleanName_spec {p : String} (h : cleanName p = true) :
    p.data ≠ [] ∧ (∀ c ∈ p.data, c ≠ '\n') ∧
    jsWhitespace (p.data.headD ' ') = false ∧
    jsWhitespace (p.data.getLastD ' ') = false := by
  unfold cleanName at h
  simp only [Bool.and_eq_true, Bool.not_eq_true', List.all_eq_true, bne_iff_ne] at h
  have h111 : p.data.isEmpty = false := h.1.1.1
  have hne : p.data ≠ [] := by
    intro he
    rw [he] at h111
    simp at h111
  exact ⟨hne, h.1.1.2, h.1.2, h.2⟩

theorem jsTrim_eq_self {p : String} (h : cleanName p = true) : jsTrim p = p := by
  obtain ⟨h1, _, h3, h4⟩ := cleanName_spec h
  unfold jsTrim
  rw [trimList_eq_self h3 h4 h1]
  rfl

theorem splitLine_clean {nm : List Char} (h : ∀ c ∈ nm, c ≠ '\n') (z : List Char) :
    splitLine (nm ++ '\n' :: z) = some (nm, z) := by
  unfold splitLine
  have hall : ∀ c ∈ nm, (decide (c ≠ '\n')) = true := by
    intro c hc; simpa using h c hc
  rw [dropWhile_append_all _ hall, takeWhile_append_all _ hall]
  rw [List.dropWhile_cons, List.takeWhile_cons]
  simp

theorem matchHeaderAt_chunk (p b tail : String) (hp : cleanName p = true) :
    matchHeaderAt ((sectionHeader p ++ b ++ "\n\n" ++ tail).data) =
      some (p, '\n' :: (b.data ++ '\n' :: '\n' :: tail.data)) := by
  obtain ⟨h1, h2, _, _⟩ := cleanName_spec hp
  have e1 : eqLine.data = eq50 := rfl
  have e2 : ("\n" : String).data = ['\n'] := rfl
  have e3 : ("File: " : String).data = fileTag := rfl
  have e4 : ("\n\n" : String).data = ['\n', '\n'] := rfl
  have hdata : (sectionHeader p ++ b ++ "\n\n" ++ tail).data =
      (eq50 ++ ['\n']) ++ (fileTag ++ (p.data ++ '\n' ::
        (eq50 ++ ('\n' :: (b.data ++ '\n' :: '\n' :: tail.data))))) := by
    unfold sectionHeader
    simp only [String.data_append, e1, e2, e3, e4]
    simp [List.append_assoc, fileTag]
  rw [hdata]
  unfold matchHeaderAt
  rw [stripPrefixChars_self_append, Option.some_bind]
  rw [stripPrefixChars_self_append, Option.some_bind]
  rw [splitLine_clean h2, Option.some_bind]
  have hne : (p.data).isEmpty = false := by
    cases hd : p.data with
    | nil => exact absurd hd h1
    | cons c t => rfl
  simp only [hne, Bool.false_eq_true, if_false]
  rw [stripPrefixChars_self_append, Option.some_bind]
  have : p.data.asString = p := rfl
  rw [this, jsTrim_eq_self hp]

theorem sepKey_prefix_chunk (p b tail : String) :
    sepKey.isPrefixOf ((sectionHeader p ++ b ++ "\n\n" ++ tail).data) = true := by
  have e1 : eqLine.data = eq50 := rfl
  have e2 : ("\n" : String).data = ['\n'] := rfl
  have e3 : ("File: " : String).data = fileTag := rfl
  have e4 : ("\n\n" : String).data = ['\n', '\n'] := rfl
  have hdata : (sectionHeader p ++ b ++ "\n\n" ++ tail).data =
      sepKey ++ (' ' :: (p.data ++ '\n' ::
        (eq50 ++ '\n' :: (b.data ++ '\n' :: '\n' :: tail.data)))) := by
    unfold sectionHeader
    simp only [String.data_append, e1, e2, e3, e4]
    simp [List.append_assoc, fileTag, sepKey]
  rw [hdata, List.isPrefixOf_iff_prefix]
  exact List.prefix_append _ _

/-- Parsing a rendered section list recovers exactly the section names and
the trimmed bodies, provided every name is clean and no body contains a
fifty-`=` run. -/
theorem parseScan_renderChunks (secs : List (String × String))
    (h : ∀ s ∈ secs, cleanName s.1 = true ∧ noEq50Run s.2.data = true) :
    parseScan (renderChunks secs).data = secs.map (fun s => (s.1, jsTrim s.2)) := by
  induction secs with
  | nil => exact parseScan_nil
  | cons s rest ih =>
    obtain ⟨p, b⟩ := s
    have hp := (h (p, b) (by simp)).1
    have hb := (h (p, b) (by simp)).2
    have hrc : renderChunks ((p, b) :: rest) =
        sectionHeader p ++ b ++ "\n\n" ++ renderChunks rest := rfl
    rw [hrc]
    rw [parseScan_some (matchHeaderAt_chunk p b (renderChunks rest) hp)]
    have hwrap : '\n' :: (b.data ++ '\n' :: '\n' :: (renderChunks rest).data) =
        ('\n' :: (b.data ++ ['\n', '\n'])) ++ (renderChunks rest).data := by
      simp
    have htake : takeUntilOcc sepKey
        ('\n' :: (b.data ++ '\n' :: '\n' :: (renderChunks rest).data)) =
        '\n' :: (b.data ++ ['\n', '\n']) := by
      rw [hwrap]
      apply takeUntilOcc_wrap
      · intro i hi
        exact sepKey_not_prefix_in_wrap hb hi _
      · cases rest with
        | nil => left; rfl
        | cons s2 r2 =>
          right
          obtain ⟨q, c⟩ := s2
          have hrc2 : renderChunks ((q, c) :: r2) =
              sectionHeader q ++ c ++ "\n\n" ++ renderChunks r2 := rfl
          rw [hrc2]
          exact sepKey_prefix_chunk q c (renderChunks r2)
    rw [htake]
    have hskip : parseScan
        ('\n' :: (b.data ++ '\n' :: '\n' :: (renderChunks rest).data)) =
        parseScan (renderChunks rest).data := by
      rw [hwrap]
      apply parseScan_skip
      intro i hi
      exact no_match_in_wrap hb hi _
    rw [hskip, ih (fun s hs => h s (by simp [hs]))]
    have hbody : jsTrim ('\n' :: (b.data ++ ['\n', '\n'])).asString = jsTrim b := by
      show (trimList ('\n' :: (b.data ++ ['\n', '\n']))).asString = _
      rw [trimList_cons_ws (by decide),
        trimList_append_ws (by intro c hc; fin_cases hc <;> decide)]
      rfl
    rw [hbody]
    rfl

/-! ## The serializer emits exactly its section list -/

theorem renderChunks_append (l₁ l₂ : List (String × String)) :
    renderChunks (l₁ ++ l₂) = renderChunks l₁ ++ renderChunks l₂ := by
  induction l₁ with
  | nil =>
    show renderChunks l₂ = "" ++ renderChunks l₂
    apply String.ext
    simp [String.data_append]
  | cons s rest ih =>
    obtain ⟨p, b⟩ := s
    have h1 : renderChunks ((p, b) :: (rest ++ l₂)) =
        sectionHeader p ++ b ++ "\n\n" ++ renderChunks (rest ++ l₂) := rfl
    have h2 : renderChunks ((p, b) :: rest) =
        sectionHeader p ++ b ++ "\n\n" ++ renderChunks rest := rfl
    show renderChunks ((p, b) :: (rest ++ l₂)) = _
    rw [h1, h2, ih]
    simp [String.append_assoc]

theorem generateContent_fst (dec : String → String) :
    ∀ (items : List Item) (path : String),
    (generateContent dec items path).1 = renderChunks (sectionsList dec items path)
  | [], path => by simp [generateContent, sectionsList, renderChunks]
  | item :: rest, path => by
    have htail := generateContent_fst dec rest path
    cases item with
    | file n size fr =>
      by_cases hbin : (isBinaryFile n || decide (size > 1000000)) = true
      · simp [generateContent, sectionsList, renderChunks_append, renderChunks,
          hbin, htail, String.append_assoc]
      · cases fr with
        | ok c =>
          simp [generateContent, sectionsList, renderChunks_append, renderChunks,
            hbin, htail, String.append_assoc]
        | error msg =>
          simp [generateContent, sectionsList, renderChunks_append, renderChunks,
            hbin, htail, String.append_assoc]
    | dir n fr =>
      cases fr with
      | none => simp [generateContent, sectionsList, renderChunks, htail]
      | some children =>
        have hchild := generateContent_fst dec children (childPath path n)
        simp [generateContent, sectionsList, renderChunks_append, hchild, htail]
  termination_by items _ => sizeOf items
  decreasing_by
  · simp; try omega
    done
  · simp; try omega
    done

/-! ## Good trees produce clean sections -/

theorem cleanName_intro {p : String} (h1 : p.data ≠ [])
    (h2 : ∀ c ∈ p.data, c ≠ '\n')
    (h3 : jsWhitespace (p.data.headD ' ') = false)
    (h4 : jsWhitespace (p.data.getLastD ' ') = false) : cleanName p = true := by
  unfold cleanName
  simp only [Bool.and_eq_true, Bool.not_eq_true', List.all_eq_true, bne_iff_ne]
  refine ⟨⟨⟨?_, h2⟩, h3⟩, h4⟩
  cases hd : p.data with
  | nil => exact absurd hd h1
  | cons c t => rfl

theorem ne_empty_of_data_ne_nil {p : String} (h : p.data ≠ []) : p ≠ "" := by
  intro he
  rw [he] at h
  exact h rfl

theorem cleanName_childPath {path n : String} (hn : cleanName n = true)
    (hp : path = "" ∨ cleanName path = true) :
    cleanName (childPath path n) = true := by
  rcases hp with hp | hp
  · subst hp
    simpa [childPath] using hn
  · obtain ⟨hn1, hn2, hn3, hn4⟩ := cleanName_spec hn
    obtain ⟨hp1, hp2, hp3, hp4⟩ := cleanName_spec hp
    have hpe : path ≠ "" := ne_empty_of_data_ne_nil hp1
    have hd : (childPath path n).data = path.data ++ '/' :: n.data := by
      unfold childPath
      rw [if_neg hpe]
      simp [String.data_append]
    apply cleanName_intro
    · rw [hd]; simp
    · rw [hd]
      intro c hc
      rcases List.mem_append.mp hc with hc | hc
      · exact hp2 c hc
      · rcases List.mem_cons.mp hc with hc | hc
        · subst hc; decide
        · exact hn2 c hc
    · rw [hd, headD_append_of_ne_nil _ hp1]
      exact hp3
    · rw [hd, getLastD_append_of_ne_nil _ (by simp)]
      have : ('/' :: n.data : List Char) = ['/'] ++ n.data := rfl
      rw [this, getLastD_append_of_ne_nil _ hn1]
      exact hn4

theorem sectionsList_clean (dec : String → String) :
    ∀ (items : List Item) (path : String), goodEntries dec items = true →
    (path = "" ∨ cleanName path = true) →
    ∀ s ∈ sectionsList dec items path,
      cleanName s.1 = true ∧ noEq50Run s.2.data = true
  | [], _, _, _ => by simp [sectionsList]
  | .file n size fr :: rest, path, hg, hp => by
    intro s hs
    rw [goodEntries.eq_def] at hg
    rw [sectionsList.eq_def] at hs
    cases fr with
    | error msg => simp at hg
    | ok c =>
      simp only [Bool.and_eq_true, decide_eq_true_eq, Bool.not_eq_true'] at hg
      obtain ⟨⟨⟨⟨⟨hclean, hslash⟩, hbin⟩, hsize⟩, hfr⟩, hgrest⟩ := hg
      have hrest := sectionsList_clean dec rest path hgrest hp
      have hcond : (isBinaryFile n || decide (size > 1000000)) = false := by
        simp [hbin]
        omega
      simp only [hcond, Bool.false_eq_true, if_false, List.mem_append,
        List.mem_singleton] at hs
      rcases hs with hs | hs
      · subst hs
        exact ⟨cleanName_childPath hclean hp, hfr⟩
      · exact hrest s hs
  | .dir n none :: rest, path, hg, hp => by
    intro s hs
    rw [goodEntries.eq_def] at hg
    simp at hg
  | .dir n (some children) :: rest, path, hg, hp => by
    intro s hs
    rw [goodEntries.eq_def] at hg
    rw [sectionsList.eq_def] at hs
    simp only [Bool.and_eq_true, Bool.not_eq_true'] at hg
    obtain ⟨⟨⟨hclean, hslash⟩, hch⟩, hgrest⟩ := hg
    have hrest := sectionsList_clean dec rest path hgrest hp
    simp only [List.mem_append] at hs
    rcases hs with hs | hs
    · exact sectionsList_clean dec children (childPath path n) hch
        (Or.inr (cleanName_childPath hclean hp)) s hs
    · exact hrest s hs
  termination_by items _ _ _ => sizeOf items
  decreasing_by
  all_goals try simp_wf
  all_goals (try simp
             omega)

/-- Re-parsing the serializer's output of a good tree recovers exactly its
section list with trimmed bodies. -/
theorem parseSections_generateContent (dec : String → String) (items : List Item)
    (hg : goodEntries dec items = true) :
    parseSections (generateContent dec items "").1 =
      (sectionsList dec items "").map (fun s => (s.1, jsTrim s.2)) := by
  unfold parseSections
  rw [generateContent_fst]
  exact parseScan_renderChunks _
    (fun s hs => sectionsList_clean dec items "" hg (Or.inl rfl) s hs)

/-! ## Structure of the extractor's result object -/

theorem matchFold_cons (p : String) (v : Option String) (s : String × String)
    (rest : List (String × String)) :
    matchFold p v (s :: rest) =
      matchFold p (if matchRule p s.1 then some s.2 else v) rest := rfl

theorem buildResult_eq (secs : List (String × String)) (paths : List String) :
    buildResult secs paths =
      (dedupFirst paths).map (fun p => (p, matchFold p none secs)) := by
  suffices h : ∀ (keys : List String) (v : String → Option String),
      secs.foldl (fun r s => applySection s r) (keys.map fun p => (p, v p)) =
        keys.map (fun p => (p, matchFold p (v p) secs)) by
    have := h (dedupFirst paths) (fun _ => none)
    simpa [buildResult, initResult, matchFold] using this
  intro keys v
  induction secs generalizing v with
  | nil => simp [matchFold]
  | cons s rest ih =>
    simp only [List.foldl_cons]
    have happ : applySection s (keys.map fun p => (p, v p)) =
        keys.map (fun p => (p, if matchRule p s.1 then some s.2 else v p)) := by
      unfold applySection
      rw [List.map_map]
      apply List.map_congr_left
      intro p _
      by_cases hm : matchRule p s.1 = true
      · simp [hm]
      · simp [hm]
    rw [happ, ih]
    simp only [matchFold_cons]

theorem matchFold_none_iff (p : String) (secs : List (String × String)) :
    ∀ (v : Option String),
    (matchFold p v secs = none ↔
      v = none ∧ ∀ s ∈ secs, matchRule p s.1 = false) := by
  induction secs with
  | nil => intro v; simp [matchFold]
  | cons s rest ih =>
    intro v
    rw [matchFold_cons]
    by_cases hm : matchRule p s.1 = true
    · rw [if_pos hm, ih]
      simp [hm]
    · rw [if_neg hm, ih]
      simp only [Bool.not_eq_true] at hm
      simp [hm]

theorem matchFold_some_stays (p : String) (b : String) :
    ∀ (rest : List (String × String)),
    (∀ s ∈ rest, matchRule p s.1 = true → s.2 = b) →
    matchFold p (some b) rest = some b := by
  intro rest
  induction rest with
  | nil => intro _; rfl
  | cons s r2 ih =>
    intro h
    rw [matchFold_cons]
    by_cases hm : matchRule p s.1 = true
    · rw [if_pos hm]
      have := h s (by simp) hm
      rw [this]
      exact ih (fun s2 hs2 hm2 => h s2 (by simp [hs2]) hm2)
    · rw [if_neg hm]
      exact ih (fun s2 hs2 hm2 => h s2 (by simp [hs2]) hm2)

theorem matchFold_unique {p b : String} {secs : List (String × String)}
    (hmem : (p, b) ∈ secs)
    (huniq : ∀ s ∈ secs, matchRule p s.1 = true → s.2 = b)
    (hrefl : matchRule p p = true) :
    matchFold p none secs = some b := by
  induction secs with
  | nil => cases hmem
  | cons s rest ih =>
    rw [matchFold_cons]
    rcases List.mem_cons.mp hmem with hs | hs
    · subst hs
      rw [if_pos hrefl]
      exact matchFold_some_stays p b rest
        (fun s2 hs2 hm2 => huniq s2 (by simp [hs2]) hm2)
    · by_cases hm : matchRule p s.1 = true
      · rw [if_pos hm]
        have hsb := huniq s (by simp) hm
        rw [hsb]
        exact matchFold_some_stays p b rest
          (fun s2 hs2 hm2 => huniq s2 (by simp [hs2]) hm2)
      · rw [if_neg hm]
        exact ih hs (fun s2 hs2 hm2 => huniq s2 (by simp [hs2]) hm2)

theorem orderEntries_id {res : List (String × Option String)}
    (h : ∀ e ∈ res, isArrayIndex e.1 = false) : orderEntries res = res := by
  unfold orderEntries
  have h1 : res.filter (fun e => isArrayIndex e.1) = [] := by
    rw [List.filter_eq_nil]
    intro e he
    simp [h e he]
  have h2 : res.filter (fun e => !isArrayIndex e.1) = res := by
    rw [List.filter_eq_self]
    intro e he
    simp [h e he]
  rw [h1, h2]
  rfl

theorem renderEntries_all_none :
    ∀ (entries : List (String × Option String)),
    (∀ e ∈ entries, e.2 = none) → renderEntries entries = "" := by
  suffices h : ∀ (entries : List (String × Option String)) (acc : String),
      (∀ e ∈ entries, e.2 = none) →
      entries.foldl
        (fun acc e =>
          match e.2 with
          | none => acc
          | some c => (if acc ≠ "" then acc ++ "\n\n" else acc) ++ sectionHeader e.1 ++ c)
        acc = acc by
    intro entries he
    exact h entries "" he
  intro entries
  induction entries with
  | nil => intro acc _; rfl
  | cons e rest ih =>
    intro acc he
    rw [List.foldl_cons]
    have h2 : e.2 = none := he e (by simp)
    rw [h2]
    exact ih acc (fun e2 he2 => he e2 (by simp [he2]))

theorem renderEntries_append_none (l : List (String × Option String)) (q : String) :
    renderEntries (l ++ [(q, none)]) = renderEntries l := by
  unfold renderEntries
  rw [List.foldl_append]
  rfl

theorem dedupFirst_cons (p : String) (t : List String) :
    dedupFirst (p :: t) = p :: dedupFirst (t.filter (· ≠ p)) := by
  rw [dedupFirst.eq_def]

theorem dedupFirst_subset : ∀ (l : List String), ∀ x ∈ dedupFirst l, x ∈ l
  | [] => by simp [dedupFirst]
  | p :: t => by
    intro x hx
    rw [dedupFirst_cons] at hx
    rcases List.mem_cons.mp hx with hx | hx
    · simp [hx]
    · have := dedupFirst_subset (t.filter (· ≠ p)) x hx
      have := List.mem_of_mem_filter this
      simp [this]
  termination_by l => l.length
  decreasing_by
  simp only [List.length_cons]
  have := List.length_filter_le (· ≠ p) t
  omega

theorem dedupFirst_append_not_mem :
    ∀ (l : List String) (q : String), q ∉ l →
    dedupFirst (l ++ [q]) = dedupFirst l ++ [q]
  | [], q, _ => by simp [dedupFirst]
  | p :: t, q, hq => by
    have hq' : q ∉ t := fun h => hq (by simp [h])
    have hqp : q ≠ p := fun h => hq (by simp [h])
    rw [List.cons_append, dedupFirst_cons, dedupFirst_cons]
    rw [List.filter_append]
    have hfq : List.filter (fun x => decide (x ≠ p)) [q] = [q] := by simp [hqp]
    rw [hfq, List.cons_append]
    rw [dedupFirst_append_not_mem (t.filter (· ≠ p)) q
      (fun h => hq' (List.mem_of_mem_filter h))]
  termination_by l _ _ => l.length
  decreasing_by
  simp only [List.length_cons]
  have := List.length_filter_le (· ≠ p) t
  omega

/-! ## Basenames and the match rule -/

theorem splitOnChar_cons (sep c : Char) (t : List Char) :
    splitOnChar sep (c :: t) =
      if c = sep then [] :: splitOnChar sep t
      else
        match splitOnChar sep t with
        | h :: rs => (c :: h) :: rs
        | [] => [[c]] := rfl

theorem splitOnChar_ne_nil (sep : Char) : ∀ (l : List Char), splitOnChar sep l ≠ []
  | [] => by simp [splitOnChar]
  | c :: t => by
    rw [splitOnChar_cons]
    by_cases hc : c = sep
    · simp [hc]
    · simp only [hc, if_false]
      cases hsp : splitOnChar sep t with
      | nil => exact absurd hsp (splitOnChar_ne_nil sep t)
      | cons h rs => simp

theorem splitOnChar_no_sep {sep : Char} : ∀ {l : List Char}, sep ∉ l →
    splitOnChar sep l = [l]
  | [], _ => rfl
  | c :: t, h => by
    have hc : c ≠ sep := fun he => h (by simp [he])
    have ht : sep ∉ t := fun he => h (by simp [he])
    rw [splitOnChar_cons, splitOnChar_no_sep ht]
    simp [hc]

theorem mem_splitOnChar_not_sep {sep : Char} : ∀ {l seg : List Char},
    seg ∈ splitOnChar sep l → sep ∉ seg
  | [], seg, h => by
    simp [splitOnChar] at h
    simp [h]
  | c :: t, seg, h => by
    rw [splitOnChar_cons] at h
    by_cases hc : c = sep
    · rw [if_pos hc] at h
      rcases List.mem_cons.mp h with h | h
      · simp [h]
      · exact mem_splitOnChar_not_sep (l := t) h
    · rw [if_neg hc] at h
      cases hsp : splitOnChar sep t with
      | nil => exact absurd hsp (splitOnChar_ne_nil sep t)
      | cons hd rs =>
        rw [hsp] at h
        have h' : seg ∈ (c :: hd) :: rs := h
        rcases List.mem_cons.mp h' with h2 | h2
        · subst h2
          intro hmem
          rcases List.mem_cons.mp hmem with hmem | hmem
          · exact hc hmem.symm
          · exact @mem_splitOnChar_not_sep sep t hd
              (by rw [hsp]; exact List.mem_cons_self _ _) hmem
        · exact @mem_splitOnChar_not_sep sep t seg
            (by rw [hsp]; exact List.mem_cons_of_mem _ h2)

theorem splitOnChar_length_ge_two (sep : Char) :
    ∀ (xs ys : List Char), 2 ≤ (splitOnChar sep (xs ++ sep :: ys)).length
  | [], ys => by
    show 2 ≤ (splitOnChar sep (sep :: ys)).length
    rw [splitOnChar_cons, if_pos rfl]
    cases hsp : splitOnChar sep ys with
    | nil => exact absurd hsp (splitOnChar_ne_nil sep ys)
    | cons h rs => simp
  | c :: xs, ys => by
    show 2 ≤ (splitOnChar sep (c :: (xs ++ sep :: ys))).length
    rw [splitOnChar_cons]
    by_cases hc : c = sep
    · rw [if_pos hc]
      cases hsp : splitOnChar sep (xs ++ sep :: ys) with
      | nil => exact absurd hsp (splitOnChar_ne_nil sep _)
      | cons h rs => simp
    · rw [if_neg hc]
      have h2 := splitOnChar_length_ge_two sep xs ys
      cases hsp : splitOnChar sep (xs ++ sep :: ys) with
      | nil => exact absurd hsp (splitOnChar_ne_nil sep _)
      | cons h rs =>
        rw [hsp] at h2
        simpa using h2

theorem getLastD_splitOnChar_append (sep : Char) (ys : List Char) :
    ∀ (xs : List Char),
    (splitOnChar sep (xs ++ sep :: ys)).getLastD [] =
      (splitOnChar sep ys).getLastD []
  | [] => by
    show (splitOnChar sep (sep :: ys)).getLastD [] = _
    rw [splitOnChar_cons, if_pos rfl, List.getLastD_cons]
  | c :: xs' => by
    show (splitOnChar sep (c :: (xs' ++ sep :: ys))).getLastD [] = _
    rw [splitOnChar_cons]
    by_cases hc : c = sep
    · rw [if_pos hc, List.getLastD_cons]
      exact getLastD_splitOnChar_append sep ys xs'
    · rw [if_neg hc]
      cases hsp : splitOnChar sep (xs' ++ sep :: ys) with
      | nil => exact absurd hsp (splitOnChar_ne_nil sep _)
      | cons h rs =>
        have hlen := splitOnChar_length_ge_two sep xs' ys
        rw [hsp] at hlen
        cases rs with
        | nil => simp at hlen
        | cons r2 rs2 =>
          have hih := getLastD_splitOnChar_append sep ys xs'
          rw [hsp] at hih
          rw [List.getLastD_cons, List.getLastD_cons] at hih
          show ((c :: h) :: r2 :: rs2).getLastD [] = _
          rw [List.getLastD_cons, List.getLastD_cons]
          exact hih

theorem basename_no_slash {q : String} (h : '/' ∉ q.data) : basename q = q := by
  unfold basename splitSlash
  rw [splitOnChar_no_sep h]
  rfl

theorem getLastD_mem {α : Type} : ∀ (l : List α) (d : α), l ≠ [] → l.getLastD d ∈ l
  | [], _, h => absurd rfl h
  | [a], _, _ => by simp [List.getLastD_cons]
  | a :: b :: t, _, _ => by
    rw [List.getLastD_cons]
    exact List.mem_cons_of_mem _ (getLastD_mem (b :: t) a (by simp))

theorem basename_mem_no_slash (p : String) : '/' ∉ (basename p).data := by
  unfold basename splitSlash
  show ('/' : Char) ∉ (splitOnChar '/' p.data).getLastD []
  exact mem_splitOnChar_not_sep
    (getLastD_mem (splitOnChar '/' p.data) [] (splitOnChar_ne_nil '/' p.data))

theorem basename_suffix {p q : String}
    (h : endsWithStr p ("/" ++ q) = true) : basename p = basename q := by
  unfold endsWithStr at h
  have hsuf : ("/" ++ q).data.IsSuffix p.data := by
    rw [← List.isSuffixOf_iff_suffix]
    exact h
  obtain ⟨pre, hpre⟩ := hsuf
  have hdq : ("/" ++ q).data = '/' :: q.data := by
    rw [String.data_append]
    rfl
  rw [hdq] at hpre
  unfold basename splitSlash
  rw [← hpre]
  rw [getLastD_splitOnChar_append]

theorem matchRule_refl (p : String) : matchRule p p = true := by
  simp [matchRule]

theorem matchRule_cases {p q : String} (h : matchRule p q = true) :
    p = q ∨ basename p = q ∨ endsWithStr p ("/" ++ q) = true := by
  unfold matchRule at h
  rcases Bool.or_eq_true_iff.mp h with h | h
  · rcases Bool.or_eq_true_iff.mp h with h | h
    · exact Or.inl (beq_iff_eq.mp h)
    · exact Or.inr (Or.inl (beq_iff_eq.mp h))
  · exact Or.inr (Or.inr h)

theorem matchRule_basename {p q : String} (h : matchRule p q = true) :
    basename p = basename q := by
  rcases matchRule_cases h with h | h | h
  · rw [h]
  · rw [← h]
    exact (basename_no_slash (basename_mem_no_slash p)).symm
  · exact basename_suffix h

/-- With pairwise-distinct basenames among the recorded section names, a
requested path that is itself one of those names matches only its own
section. -/
theorem pairwise_unique_match :
    ∀ {secs : List (String × String)},
    (secs.map Prod.fst).Pairwise (fun a b => basename a ≠ basename b) →
    ∀ {p b : String}, (p, b) ∈ secs →
    ∀ s ∈ secs, matchRule p s.1 = true → s.2 = b := by
  intro secs
  induction secs with
  | nil => intro _ p b hmem; cases hmem
  | cons e rest ih =>
    intro hpair p b hmem s hs hm
    rw [List.map_cons, List.pairwise_cons] at hpair
    rcases List.mem_cons.mp hmem with hmem | hmem
    · rcases List.mem_cons.mp hs with hs | hs
      · rw [hs, ← hmem]
      · have hb := matchRule_basename hm
        have hne := hpair.1 s.1 (List.mem_map.mpr ⟨s, hs, rfl⟩)
        rw [← hmem] at hne
        exact absurd hb hne
    · rcases List.mem_cons.mp hs with hs | hs
      · have hb := matchRule_basename hm
        have hne := hpair.1 p (List.mem_map.mpr ⟨(p, b), hmem, rfl⟩)
        rw [hs] at hb
        exact absurd hb.symm hne
      · exact ih hpair.2 hmem s hs hm

/-! ## Assembling `_getFilesContent` -/

theorem string_empty_append (s : String) : "" ++ s = s := by
  apply String.ext
  rw [String.data_append]
  rfl

theorem orderEntries_subset {res : List (String × Option String)} :
    ∀ e ∈ orderEntries res, e ∈ res := by
  intro e he
  unfold orderEntries at he
  rcases List.mem_append.mp he with he | he
  · rw [List.mem_insertionSort] at he
    exact List.mem_of_mem_filter he
  · exact List.mem_of_mem_filter he

theorem orderEntries_singleton (e : String × Option String) :
    orderEntries [e] = [e] := by
  unfold orderEntries
  by_cases hi : isArrayIndex e.1 = true
  · simp [hi, List.insertionSort]
  · simp [hi]

theorem orderEntries_append_nonidx (L : List (String × Option String))
    (e : String × Option String) (he : isArrayIndex e.1 = false) :
    orderEntries (L ++ [e]) = orderEntries L ++ [e] := by
  unfold orderEntries
  rw [List.filter_append, List.filter_append]
  have h1 : List.filter (fun x => isArrayIndex x.1) [e] = [] := by simp [he]
  have h2 : List.filter (fun x => !isArrayIndex x.1) [e] = [e] := by simp [he]
  rw [h1, h2, List.append_nil, List.append_assoc]

theorem renderEntries_single_some (p b : String) :
    renderEntries [(p, some b)] = sectionHeader p ++ b := by
  unfold renderEntries
  simp only [List.foldl_cons, List.foldl_nil]
  rw [if_neg (by simp)]
  rw [string_empty_append]

theorem sectionHeader_append_ne_empty (p b : String) :
    sectionHeader p ++ b ≠ "" := by
  intro h
  have := congrArg String.data h
  rw [String.data_append] at this
  unfold sectionHeader at this
  rw [String.data_append, String.data_append, String.data_append,
    String.data_append, String.data_append] at this
  have he : eqLine.data = List.replicate 50 '=' := rfl
  rw [he] at this
  simp at this

/-- On request lists free of canonical array-index strings, the extractor
computes exactly the specification-side extraction. -/
theorem getFilesContent_eq_extractSpec (blob : String) (paths : List String)
    (h : ∀ p ∈ paths, isArrayIndex p = false) :
    getFilesContent blob paths = extractSpec blob paths := by
  have hidx : ∀ e ∈ (dedupFirst paths).map
      (fun p => (p, matchFold p none (parseSections blob))),
      isArrayIndex e.1 = false := by
    intro e he
    obtain ⟨p, hp, rfl⟩ := List.mem_map.mp he
    exact h p (dedupFirst_subset paths p hp)
  unfold getFilesContent extractSpec
  rw [buildResult_eq, orderEntries_id hidx]
  unfold renderEntries
  rw [List.foldl_map]

/-- C8 core: when no requested path matches any parsed section, the rendered
concatenation is empty and the sentinel is returned. -/
theorem getFilesContent_sentinel {blob : String} {paths : List String}
    (h : ∀ p ∈ paths, ∀ s ∈ parseSections blob, matchRule p s.1 = false) :
    getFilesContent blob paths = "None of the requested files were found" := by
  unfold getFilesContent
  rw [buildResult_eq]
  have hnone : ∀ e ∈ orderEntries ((dedupFirst paths).map
      (fun p => (p, matchFold p none (parseSections blob)))), e.2 = none := by
    intro e he
    have := orderEntries_subset e he
    obtain ⟨p, hp, rfl⟩ := List.mem_map.mp this
    rw [matchFold_none_iff]
    exact ⟨rfl, fun s hs => h p (dedupFirst_subset paths p hp) s hs⟩
  rw [renderEntries_all_none _ hnone]
  rfl

/-- C8 core: appending one more requested path that matches nothing (and is
not an array-index key) leaves the result unchanged. -/
theorem getFilesContent_append_miss {blob q : String} {paths : List String}
    (hq1 : ∀ s ∈ parseSections blob, matchRule q s.1 = false)
    (hq2 : isArrayIndex q = false) (hq3 : q ∉ paths) :
    getFilesContent blob (paths ++ [q]) = getFilesContent blob paths := by
  unfold getFilesContent
  rw [buildResult_eq, buildResult_eq, dedupFirst_append_not_mem paths q hq3]
  rw [List.map_append]
  have hqv : matchFold q none (parseSections blob) = none := by
    rw [matchFold_none_iff]
    exact ⟨rfl, hq1⟩
  simp only [List.map_cons, List.map_nil, hqv]
  rw [orderEntries_append_nonidx _ _ hq2, renderEntries_append_none]

/-! ## The sort comparator is a total preorder -/

theorem cmpNatList_eq_iff : ∀ (a b : List Nat), cmpNatList a b = .eq ↔ a = b
  | [], [] => by simp [cmpNatList]
  | [], _ :: _ => by simp [cmpNatList]
  | _ :: _, [] => by simp [cmpNatList]
  | x :: xs, y :: ys => by
    unfold cmpNatList
    by_cases h1 : x < y
    · simp only [h1, if_true]
      constructor
      · intro hh; cases hh
      · intro hh
        rw [List.cons.injEq] at hh
        omega
    · by_cases h2 : y < x
      · simp only [h1, h2, if_false, if_true]
        constructor
        · intro hh; cases hh
        · intro hh
          rw [List.cons.injEq] at hh
          omega
      · simp only [h1, h2, if_false]
        rw [cmpNatList_eq_iff xs ys, List.cons.injEq]
        constructor
        · intro hh; exact ⟨by omega, hh⟩
        · intro hh; exact hh.2

theorem cmpNatList_gt_iff_lt : ∀ (a b : List Nat),
    cmpNatList a b = .gt ↔ cmpNatList b a = .lt
  | [], [] => by simp [cmpNatList]
  | [], _ :: _ => by simp [cmpNatList]
  | _ :: _, [] => by simp [cmpNatList]
  | x :: xs, y :: ys => by
    unfold cmpNatList
    by_cases h1 : x < y
    · have h2 : ¬ y < x := by omega
      simp only [h1, h2, if_true, if_false]
      constructor
      · intro hh; cases hh
      · intro hh; cases hh
    · by_cases h2 : y < x
      · simp [h1, h2]
      · simp only [h1, h2, if_false]
        exact cmpNatList_gt_iff_lt xs ys

theorem cmpNatList_lt_trans : ∀ {a b c : List Nat},
    cmpNatList a b = .lt → cmpNatList b c = .lt → cmpNatList a c = .lt := by
  intro a
  induction a with
  | nil =>
    intro b c h1 h2
    cases c with
    | nil =>
      cases b with
      | nil => cases h1
      | cons y ys => cases h2
    | cons z zs => simp [cmpNatList]
  | cons x xs ih =>
    intro b c h1 h2
    cases b with
    | nil => cases h1
    | cons y ys =>
      cases c with
      | nil => cases h2
      | cons z zs =>
        unfold cmpNatList at h1 h2 ⊢
        by_cases hxy : x < y
        · by_cases hyz : y < z
          · rw [if_pos (by omega)]
          · by_cases hzy : z < y
            · rw [if_pos hxy] at h1
              rw [if_neg hyz, if_pos hzy] at h2
              cases h2
            · have hyz' : y = z := by omega
              rw [if_pos (by omega)]
        · by_cases hyx : y < x
          · rw [if_neg hxy, if_pos hyx] at h1
            cases h1
          · have hxy' : x = y := by omega
            by_cases hyz : y < z
            · rw [if_pos (by omega)]
            · by_cases hzy : z < y
              · rw [if_neg hyz, if_pos hzy] at h2
                cases h2
              · rw [if_neg (by omega), if_neg (by omega)]
                rw [if_neg hxy, if_neg hyx] at h1
                rw [if_neg hyz, if_neg hzy] at h2
                exact ih h1 h2

theorem localeCompare_total (a b : String) :
    localeCompare a b ≤ 0 ∨ localeCompare b a ≤ 0 := by
  unfold localeCompare
  cases h1 : cmpNatList (a.data.map primaryWeight) (b.data.map primaryWeight) with
  | lt => left; simp
  | gt =>
    right
    rw [(cmpNatList_gt_iff_lt _ _).mp h1]
    simp
  | eq =>
    have h1' : cmpNatList (b.data.map primaryWeight) (a.data.map primaryWeight) = .eq := by
      rw [cmpNatList_eq_iff] at h1 ⊢
      exact h1.symm
    rw [h1']
    cases h2 : cmpNatList (a.data.map tertiaryWeight) (b.data.map tertiaryWeight) with
    | lt => left; simp
    | gt =>
      right
      rw [(cmpNatList_gt_iff_lt _ _).mp h2]
      simp
    | eq =>
      have h2' : cmpNatList (b.data.map tertiaryWeight) (a.data.map tertiaryWeight) = .eq := by
        rw [cmpNatList_eq_iff] at h2 ⊢
        exact h2.symm
      rw [h2']
      simp

theorem cmpNatList_ne_gt_trans {x y z : List Nat}
    (h1 : cmpNatList x y ≠ .gt) (h2 : cmpNatList y z ≠ .gt) :
    cmpNatList x z ≠ .gt := by
  cases c1 : cmpNatList x y with
  | gt => exact absurd c1 h1
  | eq =>
    rw [cmpNatList_eq_iff] at c1
    rw [c1]
    exact h2
  | lt =>
    cases c2 : cmpNatList y z with
    | gt => exact absurd c2 h2
    | eq =>
      rw [cmpNatList_eq_iff] at c2
      rw [← c2, c1]
      simp
    | lt =>
      rw [cmpNatList_lt_trans c1 c2]
      simp

theorem localeCompare_le_iff (a b : String) :
    localeCompare a b ≤ 0 ↔
      (cmpNatList (a.data.map primaryWeight) (b.data.map primaryWeight) = .lt ∨
       (cmpNatList (a.data.map primaryWeight) (b.data.map primaryWeight) = .eq ∧
        cmpNatList (a.data.map tertiaryWeight) (b.data.map tertiaryWeight) ≠ .gt)) := by
  unfold localeCompare
  cases h1 : cmpNatList (a.data.map primaryWeight) (b.data.map primaryWeight) with
  | lt => simp
  | gt => simp
  | eq =>
    cases h2 : cmpNatList (a.data.map tertiaryWeight) (b.data.map tertiaryWeight) with
    | lt => simp
    | gt => simp
    | eq => simp

theorem localeCompare_trans {a b c : String}
    (h1 : localeCompare a b ≤ 0) (h2 : localeCompare b c ≤ 0) :
    localeCompare a c ≤ 0 := by
  rw [localeCompare_le_iff] at h1 h2 ⊢
  rcases h1 with h1 | ⟨h1, h1t⟩
  · rcases h2 with h2 | ⟨h2, _⟩
    · exact Or.inl (cmpNatList_lt_trans h1 h2)
    · rw [cmpNatList_eq_iff] at h2
      rw [← h2]
      exact Or.inl h1
  · rw [cmpNatList_eq_iff] at h1
    rcases h2 with h2 | ⟨h2, h2t⟩
    · rw [h1]
      exact Or.inl h2
    · rw [cmpNatList_eq_iff] at h2
      right
      constructor
      · rw [h1, h2, cmpNatList_eq_iff]
      · -- the tertiary sequences compose transitively
        have hTab : a.data.map tertiaryWeight = a.data.map tertiaryWeight := rfl
        exact cmpNatList_ne_gt_trans h1t h2t

theorem entryCmp_dir_file {a b : Item} (ha : a.isDir = true) (hb : b.isDir = false) :
    entryCmp a b = -1 := by
  simp [entryCmp, ha, hb]

theorem entryCmp_file_dir {a b : Item} (ha : a.isDir = false) (hb : b.isDir = true) :
    entryCmp a b = 1 := by
  simp [entryCmp, ha, hb]

theorem entryCmp_same_kind {a b : Item} (h : a.isDir = b.isDir) :
    entryCmp a b = localeCompare a.name b.name := by
  cases hb : b.isDir with
  | true => rw [hb] at h; simp [entryCmp, h, hb]
  | false => rw [hb] at h; simp [entryCmp, h, hb]

theorem entryLE_total (a b : Item) : entryLE a b ∨ entryLE b a := by
  unfold entryLE
  cases ha : a.isDir <;> cases hb : b.isDir
  · rw [entryCmp_same_kind (ha.trans hb.symm), entryCmp_same_kind (hb.trans ha.symm)]
    exact localeCompare_total _ _
  · right
    rw [entryCmp_dir_file hb ha]
    norm_num
  · left
    rw [entryCmp_dir_file ha hb]
    norm_num
  · rw [entryCmp_same_kind (ha.trans hb.symm), entryCmp_same_kind (hb.trans ha.symm)]
    exact localeCompare_total _ _

theorem entryLE_trans {a b c : Item} (h1 : entryLE a b) (h2 : entryLE b c) :
    entryLE a c := by
  unfold entryLE at *
  cases ha : a.isDir <;> cases hb : b.isDir <;> cases hc : c.isDir
  · rw [entryCmp_same_kind (ha.trans hb.symm)] at h1
    rw [entryCmp_same_kind (hb.trans hc.symm)] at h2
    rw [entryCmp_same_kind (ha.trans hc.symm)]
    exact localeCompare_trans h1 h2
  · rw [entryCmp_file_dir hb hc] at h2
    omega
  · rw [entryCmp_file_dir ha hb] at h1
    omega
  · rw [entryCmp_file_dir ha hb] at h1
    omega
  · rw [entryCmp_dir_file ha hc]
    omega
  · rw [entryCmp_file_dir hb hc] at h2
    omega
  · rw [entryCmp_dir_file ha hc]
    omega
  · rw [entryCmp_same_kind (ha.trans hb.symm)] at h1
    rw [entryCmp_same_kind (hb.trans hc.symm)] at h2
    rw [entryCmp_same_kind (ha.trans hc.symm)]
    exact localeCompare_trans h1 h2

instance : IsTotal Item entryLE := ⟨entryLE_total⟩

instance : IsTrans Item entryLE := ⟨fun _ _ _ => entryLE_trans⟩

/-- The sorted listing places directories before files and, within runs of
equal kind, is ordered by `localeCompare`. -/
theorem sortEntries_pairwise (items : List Item) :
    (sortEntries items).Pairwise (fun a b =>
      (b.isDir = true → a.isDir = true) ∧
      (a.isDir = b.isDir → localeCompare a.name b.name ≤ 0)) := by
  have hs : (sortEntries items).Pairwise entryLE :=
    List.sorted_insertionSort entryLE items
  refine hs.imp ?_
  intro a b h
  unfold entryLE entryCmp at h
  constructor
  · intro hb
    by_contra ha
    rw [Bool.not_eq_true] at ha
    rw [ha, hb] at h
    simp at h
  · intro hab
    cases ha : a.isDir with
    | false => rw [ha] at hab; rw [ha, ← hab] at h; simpa using h
    | true => rw [ha] at hab; rw [ha, ← hab] at h; simpa using h

theorem string_append_empty (s : String) : s ++ "" = s := by
  apply String.ext
  rw [String.data_append]
  simp

/-- The serializer records one section per file in depth-first listing
order; the recorded names are exactly the `dfsFilePaths`. -/
theorem sectionsList_fst (dec : String → String) :
    ∀ (items : List Item) (path : String),
    (sectionsList dec items path).map Prod.fst = dfsFilePaths items path
  | [], path => by simp [sectionsList, dfsFilePaths]
  | item :: rest, path => by
    have htail := sectionsList_fst dec rest path
    cases item with
    | file n size fr =>
      by_cases hbin : (isBinaryFile n || decide (size > 1000000)) = true
      · simp [sectionsList, dfsFilePaths, hbin, htail]
      · cases fr with
        | ok c => simp [sectionsList, dfsFilePaths, hbin, htail]
        | error msg => simp [sectionsList, dfsFilePaths, hbin, htail]
    | dir n fr =>
      cases fr with
      | none => simp [sectionsList, dfsFilePaths, htail]
      | some children =>
        have hchild := sectionsList_fst dec children (childPath path n)
        simp [sectionsList, dfsFilePaths, htail, hchild]
  termination_by items _ => sizeOf items
  decreasing_by
  · simp; try omega
    done
  · simp; try omega
    done

theorem matchRule_iff (p q : String) :
    matchRule p q = true ↔
      (p = q ∨ basename p = q ∨ endsWithStr p ("/" ++ q) = true) := by
  constructor
  · exact matchRule_cases
  · intro h
    unfold matchRule
    rcases h with h | h | h
    · simp [h]
    · simp [h]
    · simp [h]

/-! ## Evaluating the URL search -/

theorem searchOwnerRepo_cons (c : Char) (t : List Char) :
    searchOwnerRepo (c :: t) =
      match parseOwnerRepoAt (c :: t) with
      | some r => some r
      | none => searchOwnerRepo t := rfl

theorem searchOwnerRepo_skip {pre suf : List Char}
    (h : ∀ i < pre.length, parseOwnerRepoAt (pre.drop i ++ suf) = none) :
    searchOwnerRepo (pre ++ suf) = searchOwnerRepo suf := by
  induction pre with
  | nil => rfl
  | cons c t ih =>
    have h0 := h 0 (by simp)
    simp only [List.drop_zero, List.cons_append] at h0
    show searchOwnerRepo (c :: (t ++ suf)) = _
    rw [searchOwnerRepo_cons, h0]
    exact ih (fun i hi => by
      have := h (i + 1) (by simp; omega)
      simpa using this)

theorem parseOwnerRepoAt_none_no_slash {l : List Char} (h : '/' ∉ l) :
    parseOwnerRepoAt l = none := by
  unfold parseOwnerRepoAt stripPrefixChars
  rw [if_neg]
  · rfl
  · intro hp
    have hmem : '/' ∈ ("github.com/" : String).data := by decide
    exact h (((List.isPrefixOf_iff_prefix.mp hp).sublist).mem hmem)

theorem searchOwnerRepo_none_no_slash : ∀ {l : List Char}, '/' ∉ l →
    searchOwnerRepo l = none
  | [], _ => rfl
  | c :: t, h => by
    rw [searchOwnerRepo_cons, parseOwnerRepoAt_none_no_slash h]
    exact searchOwnerRepo_none_no_slash (fun hm => h (by simp [hm]))

theorem takeWhile_all {p : Char → Bool} {l : List Char}
    (h : ∀ c ∈ l, p c = true) : l.takeWhile p = l := by
  have := @takeWhile_append_all p l [] h
  simpa using this

/-- Successful leftmost match of the constructor's regex on a well-formed
`https://github.com/owner/repo` URL. -/
theorem parseOwnerRepoAt_success (owner repo : String)
    (ho : owner ≠ "") (hr : repo ≠ "")
    (ho2 : '/' ∉ owner.data) (hr2 : '/' ∉ repo.data) :
    parseOwnerRepoAt (("github.com/" : String).data ++
      (owner.data ++ '/' :: repo.data)) = some (owner, repo) := by
  unfold parseOwnerRepoAt
  rw [stripPrefixChars_self_append, Option.some_bind]
  have hall : ∀ c ∈ owner.data, (decide (c ≠ '/')) = true := by
    intro c hc
    simp only [decide_eq_true_eq]
    intro he
    exact ho2 (he ▸ hc)
  rw [takeWhile_append_all _ hall, dropWhile_append_all _ hall]
  rw [List.takeWhile_cons, List.dropWhile_cons]
  simp only [decide_eq_true_eq, if_false, Ne, not_true_eq_false,
    Bool.false_eq_true, List.append_nil]
  have hoe : (owner.data ++ []).isEmpty = false := by
    cases hd : owner.data with
    | nil => exact absurd (String.ext hd) ho
    | cons c t => rfl
  simp only [List.append_nil] at hoe
  rw [if_neg (by simp [hoe])]
  have hallr : ∀ c ∈ repo.data, (decide (c ≠ '/')) = true := by
    intro c hc
    simp only [decide_eq_true_eq]
    intro he
    exact hr2 (he ▸ hc)
  rw [takeWhile_all hallr]
  have hre : repo.data.isEmpty = false := by
    cases hd : repo.data with
    | nil => exact absurd (String.ext hd) hr
    | cons c t => rfl
  rw [if_neg (by simp [hre])]
  rfl

/-- The regex literal `github.com/` cannot match at a position whose first
character is not `g`. -/
theorem stripPrefixChars_github_ne {c : Char} (t : List Char) (h : c ≠ 'g') :
    stripPrefixChars ("github.com/".data) (c :: t) = none := by
  unfold stripPrefixChars
  rw [if_neg]
  intro hpre
  rw [List.isPrefixOf_iff_prefix] at hpre
  obtain ⟨r, hr⟩ := hpre
  have hr' : 'g' :: ("ithub.com/".data ++ r) = c :: t := hr
  injection hr' with h1 _
  exact h h1.symm

theorem parseOwnerRepoAt_ne_g {c : Char} (t : List Char) (h : c ≠ 'g') :
    parseOwnerRepoAt (c :: t) = none := by
  unfold parseOwnerRepoAt
  rw [stripPrefixChars_github_ne t h, Option.none_bind]

/-- After the literal `github.com/`, a remainder without `/` gives the second
capture group nothing to match: the regex fails at this position. -/
theorem parseOwnerRepoAt_no_repo {s : List Char} (h : '/' ∉ s) :
    parseOwnerRepoAt ("github.com/".data ++ s) = none := by
  unfold parseOwnerRepoAt
  rw [stripPrefixChars_self_append, Option.some_bind]
  have hall : ∀ c ∈ s, (decide (c ≠ '/')) = true := by
    intro c hc
    simp only [decide_eq_true_eq]
    exact fun he => h (he ▸ hc)
  rw [takeWhile_all hall, dropWhile_eq_nil_of_all hall]
  split
  · rename_i r2 heq
    cases heq
  · simp

theorem searchOwnerRepo_of_parse {l : List Char} {r : String × String}
    (h : parseOwnerRepoAt l = some r) : searchOwnerRepo l = some r := by
  cases l with
  | nil =>
    have hn : parseOwnerRepoAt ([] : List Char) = none := by decide
    rw [hn] at h
    cases h
  | cons c t => rw [searchOwnerRepo_cons, h]

/-- The scheme-and-authority prefix `https://` of a URL admits no match of
`github.com/...` starting inside it, so the search skips it. -/
theorem searchOwnerRepo_https (suf : List Char) :
    searchOwnerRepo (("https://".data) ++ suf) = searchOwnerRepo suf := by
  apply searchOwnerRepo_skip
  intro i hi
  have hi8 : i < 8 := hi
  interval_cases i <;> exact parseOwnerRepoAt_ne_g _ (by decide)

/-- A URL ending in `github.com/<owner>` with no further `/` has no match of
the constructor regex anywhere. -/
theorem searchOwnerRepo_no_repo {owner : List Char} (h : '/' ∉ owner) :
    searchOwnerRepo ("github.com/".data ++ owner) = none := by
  refine (searchOwnerRepo_skip ?_).trans (searchOwnerRepo_none_no_slash h)
  intro i hi
  have hi11 : i < 11 := hi
  interval_cases i
  · exact parseOwnerRepoAt_no_repo h
  all_goals exact parseOwnerRepoAt_ne_g _ (by decide)

theorem parseSections_empty : parseSections "" = [] := parseScan_nil

/-- On a duplicate-free key list the result object's slots are exactly the
keys in order. -/
theorem dedupFirst_nodup : ∀ {l : List String}, l.Nodup → dedupFirst l = l
  | [], _ => by rw [dedupFirst.eq_def]
  | p :: t, h => by
    rw [dedupFirst_cons]
    have hf : t.filter (· ≠ p) = t := by
      rw [List.filter_eq_self]
      intro a ha
      simp only [decide_eq_true_eq]
      intro he
      exact (List.nodup_cons.mp h).1 (he ▸ ha)
    rw [hf, dedupFirst_nodup (List.nodup_cons.mp h).2]
  termination_by l => l.length

/-! # Claims -/

/-- **C9**: on a freshly constructed instance, before any fetch cycle has
completed, every public accessor returns its fixed placeholder string
instead of throwing: `getSummary()` returns `'Summary not available'`,
`getTree()` returns `'Tree structure not available'`, and `getContent()` —
with or without a requested-paths list — returns `'Content not available'`. -/
theorem claim_c9_fresh_accessors (url : String) (branch : Option String)
    (g : Ingester) (h : mkIngester url branch = .ok g) :
    getSummary g = "Summary not available" ∧
    getTree g = "Tree structure not available" ∧
    getContent g none = "Content not available" ∧
    ∀ ps : List String, getContent g (some ps) = "Content not available" := by
  unfold mkIngester at h
  cases hs : searchOwnerRepo url.data with
  | none => rw [hs] at h; cases h
  | some pr =>
    obtain ⟨o, r⟩ := pr
    rw [hs] at h
    cases h
    exact ⟨rfl, rfl, rfl, fun _ => rfl⟩

/-- Witness for C9 at the concrete URL `https://github.com/foo/bar`. -/
theorem claim_c9_fresh_accessors_witness :
    getSummary ⟨"https://github.com/foo/bar", none, "foo", "bar",
      none, none, none⟩ = "Summary not available" ∧
    getTree ⟨"https://github.com/foo/bar", none, "foo", "bar",
      none, none, none⟩ = "Tree structure not available" ∧
    getContent ⟨"https://github.com/foo/bar", none, "foo", "bar",
      none, none, none⟩ none = "Content not available" ∧
    ∀ ps : List String,
      getContent ⟨"https://github.com/foo/bar", none, "foo", "bar",
        none, none, none⟩ (some ps) = "Content not available" :=
  claim_c9_fresh_accessors "https://github.com/foo/bar" none _ rfl

/-- **C7**: on a subdirectory-children fetch failure, the Tree Builder emits
exactly one warning line `⚠️ Error loading directory contents`, indented one
level deeper, in place of that subdirectory's children, and continues with
the remaining siblings; the Content Serializer emits nothing at all for the
failed subdirectory and continues; both traversals complete with partial
results rather than propagating the error. -/
theorem claim_c7_subdir_failure (dec : String → String) (n path : String)
    (rest : List Item) :
    treeLoop (Item.dir n none :: rest) path =
      indentOf path ++ "📁 " ++ n ++ "/\n" ++
      indentOf path ++ "  ⚠️ Error loading directory contents\n" ++
      treeLoop rest path ∧
    generateContent dec (Item.dir n none :: rest) path =
      generateContent dec rest path := by
  constructor
  · rw [treeLoop.eq_def]
  · rw [generateContent.eq_def]
    simp [string_empty_append]

/-- **C4**: a file entry whose (case-insensitive) extension is on the fixed
deny-list — regardless of size — or whose listed size exceeds 1,000,000 bytes
makes the Content Serializer emit the three-line header, the single line
`[Binary or large file: <size> bytes]` and a blank line, with zero body
fetches performed; a file entry outside the deny-list of size at most
1,000,000 has its body fetched and base64-decoded, and the serializer emits
header, decoded body and a blank line. -/
theorem claim_c4_binary_classification (dec : String → String) (n path : String)
    (size : Nat) :
    ((isBinaryFile n = true ∨ size > 1000000) →
      ∀ fr : Except String String,
        generateContent dec [Item.file n size fr] path =
          (sectionHeader (childPath path n) ++
            "[Binary or large file: " ++ toString size ++ " bytes]\n\n", [])) ∧
    (isBinaryFile n = false → size ≤ 1000000 →
      ∀ c : String,
        generateContent dec [Item.file n size (.ok c)] path =
          (sectionHeader (childPath path n) ++ dec c ++ "\n\n",
            [childPath path n])) := by
  constructor
  · intro h fr
    have hcond : (isBinaryFile n || decide (size > 1000000)) = true := by
      rcases h with h | h
      · simp [h]
      · simp [h]
    rw [generateContent.eq_def]
    simp only [hcond, if_true]
    rw [generateContent.eq_def]
    simp [string_append_empty, String.append_assoc]
  · intro h1 h2 c
    have hcond : (isBinaryFile n || decide (size > 1000000)) = false := by
      simp [h1]
      omega
    rw [generateContent.eq_def]
    simp only [hcond, Bool.false_eq_true, if_false]
    rw [generateContent.eq_def]
    simp [string_append_empty, String.append_assoc]

/-- Witness for C4: a `.png` of 123 bytes is emitted as a placeholder with
no fetch; a `.txt` of 999,999 bytes is fetched and decoded. -/
theorem claim_c4_binary_classification_witness :
    generateContent (fun s => s) [Item.file "photo.png" 123 (.ok "zz")] "" =
      (sectionHeader "photo.png" ++
        "[Binary or large file: 123 bytes]\n\n", []) ∧
    generateContent (fun s => s) [Item.file "notes.txt" 999999 (.ok "hi")] "" =
      (sectionHeader "notes.txt" ++ "hi\n\n", ["notes.txt"]) := by
  have h := claim_c4_binary_classification (fun s => s) "photo.png" "" 123
  have h2 := claim_c4_binary_classification (fun s => s) "notes.txt" "" 999999
  constructor
  · have := h.1 (Or.inl (by decide)) (.ok "zz")
    simpa [childPath] using this
  · have := h2.2 (by decide) (by omega) "hi"
    simpa [childPath] using this

/-- **C6 counterexample**: with the two files `a.txt` and `B.txt` the Tree
Builder renders `a.txt` first, although `B.txt` is strictly smaller in
case-sensitive (code-unit) lexicographic order — `localeCompare` under the
default locale orders case-insensitively, lowercase first on ties, so the
within-group order is not case-sensitive lexicographic order by name. -/
theorem claim_c6_counterexample :
    generateTree [Item.file "a.txt" 1 (.ok ""), Item.file "B.txt" 1 (.ok "")] "" =
      "📄 a.txt\n📄 B.txt\n" ∧
    "B.txt".data < "a.txt".data := by
  constructor
  · have hab : entryLE (Item.file "a.txt" 1 (.ok "")) (Item.file "B.txt" 1 (.ok "")) := by
      decide
    simp [generateTree, treeLoop, sortEntries, List.insertionSort,
      List.orderedInsert, hab, indentOf, childPath]
  · decide

/-- **C6 amended**: the Tree Builder renders all directory entries before
all file entries; within the two groups entries are ordered by the
(ICU default-locale) `localeCompare` comparator — which is not in general
case-sensitive code-unit lexicographic order — and the rendering is a
permutation of the input.  In particular, for the entries
`{b.txt (file), A (dir)}` the rendered order is `A/` before `b.txt`
regardless of input order. -/
theorem claim_c6_sort_order (items : List Item) :
    (sortEntries items).Pairwise (fun a b =>
      (b.isDir = true → a.isDir = true) ∧
      (a.isDir = b.isDir → localeCompare a.name b.name ≤ 0)) ∧
    (sortEntries items).Perm items ∧
    generateTree [Item.file "b.txt" 1 (.ok ""), Item.dir "A" (some [])] "" =
      "📁 A/\n📄 b.txt\n" ∧
    generateTree [Item.dir "A" (some []), Item.file "b.txt" 1 (.ok "")] "" =
      "📁 A/\n📄 b.txt\n" := by
  refine ⟨sortEntries_pairwise items, List.perm_insertionSort entryLE items, ?_, ?_⟩
  · have hba : ¬ entryLE (Item.file "b.txt" 1 (.ok "")) (Item.dir "A" (some [])) := by
      decide
    simp [generateTree, treeLoop, sortEntries, List.insertionSort,
      List.orderedInsert, hba, indentOf, childPath]
  · have hab : entryLE (Item.dir "A" (some [])) (Item.file "b.txt" 1 (.ok "")) := by
      decide
    simp [generateTree, treeLoop, sortEntries, List.insertionSort,
      List.orderedInsert, hab, indentOf, childPath]


/-- **C5 counterexample**: the URL `https://gitlab.com/foo/bar` is a
well-formed `https://host/owner/repo` URL, yet construction fails with
`'Invalid GitHub URL format'`: the constructor regex demands the literal host
`github.com`, so the claim's "for every well-formed `https://host/owner/repo`
URL" is false for every non-GitHub host. -/
theorem claim_c5_counterexample :
    mkIngester "https://gitlab.com/foo/bar" none =
      .error "Invalid GitHub URL format" := rfl

/-- **C5 amended**: for a well-formed GitHub URL
`https://github.com/<owner>/<repo>` (both segments non-empty and
slash-free), construction succeeds and records exactly those two segments as
`owner` and `repo`; with the repo segment missing, construction fails with
the `'Invalid GitHub URL format'` error and no handle is produced. -/
theorem claim_c5_github_url_parsing (owner repo : String)
    (ho : owner ≠ "") (hr : repo ≠ "")
    (ho2 : '/' ∉ owner.data) (hr2 : '/' ∉ repo.data) :
    mkIngester ("https://github.com/" ++ owner ++ "/" ++ repo) none =
      .ok ⟨"https://github.com/" ++ owner ++ "/" ++ repo, none, owner, repo,
        none, none, none⟩ ∧
    mkIngester ("https://github.com/" ++ owner) none =
      .error "Invalid GitHub URL format" := by
  have hdata : ("https://github.com/" ++ owner ++ "/" ++ repo).data
      = "https://".data ++ ("github.com/".data ++ (owner.data ++ '/' :: repo.data)) := by
    simp [String.data_append, List.append_assoc]
  have hdata2 : ("https://github.com/" ++ owner).data
      = "https://".data ++ ("github.com/".data ++ owner.data) := by
    simp [String.data_append, List.append_assoc]
  constructor
  · unfold mkIngester
    rw [hdata, searchOwnerRepo_https,
      searchOwnerRepo_of_parse (parseOwnerRepoAt_success owner repo ho hr ho2 hr2)]
  · unfold mkIngester
    rw [hdata2, searchOwnerRepo_https, searchOwnerRepo_no_repo ho2]

/-- Witness for C5 at owner `foo`, repo `bar`. -/
theorem claim_c5_github_url_parsing_witness :
    mkIngester ("https://github.com/" ++ "foo" ++ "/" ++ "bar") none =
      .ok ⟨"https://github.com/" ++ "foo" ++ "/" ++ "bar", none, "foo", "bar",
        none, none, none⟩ ∧
    mkIngester ("https://github.com/" ++ "foo") none =
      .error "Invalid GitHub URL format" :=
  claim_c5_github_url_parsing "foo" "bar" (by decide) (by decide)
    (by decide) (by decide)


/-- **C2 counterexample**: the claim's own example is backwards.  Requesting
the bare filename `README.md` does *not* match a section recorded as
`docs/README.md`: the code compares the *requested path's* basename against
the full recorded name (and tests whether the *requested path* ends in
`/<recorded name>`), so the bare request finds nothing and extraction
returns the sentinel. -/
theorem claim_c2_counterexample :
    matchRule "README.md" "docs/README.md" = false ∧
    getFilesContent (renderChunks [("docs/README.md", "hello")]) ["README.md"] =
      "None of the requested files were found" := by
  have hps : parseSections (renderChunks [("docs/README.md", "hello")]) =
      [("docs/README.md", "hello")] := by
    have h := parseScan_renderChunks [("docs/README.md", "hello")] (by decide)
    unfold parseSections
    rw [h]
    decide
  refine ⟨by decide, ?_⟩
  apply getFilesContent_sentinel
  intro p hp s hs
  rw [hps] at hs
  simp only [List.mem_singleton] at hp hs
  subst hp
  subst hs
  decide

/-- **C2 amended**: a requested path `p` matches a section recorded as `q`
iff `p = q`, or `p`'s final segment equals `q`, or `p` ends with `'/'`
followed by `q` — so a *full-path or longer* request matches a section
recorded by basename (requesting `docs/README.md` matches a section recorded
`README.md`), not the reverse; a path matching no section leaves its slot
null and contributes nothing. -/
theorem claim_c2_match_rule (p q : String) (secs : List (String × String)) :
    (matchRule p q = true ↔
      (p = q ∨ basename p = q ∨ endsWithStr p ("/" ++ q) = true)) ∧
    matchRule "docs/README.md" "README.md" = true ∧
    matchRule "docs/README.md" "docs/README.md" = true ∧
    ((∀ s ∈ secs, matchRule p s.1 = false) → matchFold p none secs = none) := by
  refine ⟨matchRule_iff p q, by decide, by decide, ?_⟩
  intro h
  rw [matchFold_none_iff]
  exact ⟨rfl, h⟩

/-- Witness for C2 at concrete paths and a concrete one-section list. -/
theorem claim_c2_match_rule_witness :
    ((matchRule "docs/README.md" "README.md" = true ↔
      ("docs/README.md" = "README.md" ∨
        basename "docs/README.md" = "README.md" ∨
        endsWithStr "docs/README.md" ("/" ++ "README.md") = true)) ∧
    matchRule "docs/README.md" "README.md" = true ∧
    matchRule "docs/README.md" "docs/README.md" = true ∧
    ((∀ s ∈ ([("x.txt", "y")] : List (String × String)),
        matchRule "docs/README.md" s.1 = false) →
      matchFold "docs/README.md" none [("x.txt", "y")] = none)) :=
  claim_c2_match_rule "docs/README.md" "README.md" [("x.txt", "y")]

/-- **C8**: a requested path matching no parsed section is represented by
omission — appending it to the request list leaves the result unchanged —
and when no requested path at all matches (the request list `paths ++ [q]`
being non-empty), the extractor returns the fixed sentinel
`'None of the requested files were found'`, never the empty string. -/
theorem claim_c8_miss_handling (blob q : String) (paths : List String)
    (hq1 : ∀ s ∈ parseSections blob, matchRule q s.1 = false)
    (hq2 : isArrayIndex q = false) (hq3 : q ∉ paths) :
    getFilesContent blob (paths ++ [q]) = getFilesContent blob paths ∧
    ((∀ p ∈ paths, ∀ s ∈ parseSections blob, matchRule p s.1 = false) →
      getFilesContent blob (paths ++ [q]) =
        "None of the requested files were found" ∧
      getFilesContent blob (paths ++ [q]) ≠ "") := by
  refine ⟨getFilesContent_append_miss hq1 hq2 hq3, ?_⟩
  intro hall
  have hs : getFilesContent blob (paths ++ [q]) =
      "None of the requested files were found" := by
    apply getFilesContent_sentinel
    intro p hp s hs
    rcases List.mem_append.mp hp with hp | hp
    · exact hall p hp s hs
    · rw [List.mem_singleton] at hp
      subst hp
      exact hq1 s hs
  refine ⟨hs, ?_⟩
  rw [hs]
  decide

/-- Witness for C8: an empty blob parses to no sections, so any request
list misses entirely. -/
theorem claim_c8_miss_handling_witness :
    (getFilesContent "" (["a.txt"] ++ ["b.txt"]) = getFilesContent "" ["a.txt"] ∧
    ((∀ p ∈ ["a.txt"], ∀ s ∈ parseSections "", matchRule p s.1 = false) →
      getFilesContent "" (["a.txt"] ++ ["b.txt"]) =
        "None of the requested files were found" ∧
      getFilesContent "" (["a.txt"] ++ ["b.txt"]) ≠ "")) :=
  claim_c8_miss_handling "" "b.txt" ["a.txt"]
    (by rw [parseSections_empty]; simp)
    (by decide) (by decide)

/-- **C3 counterexample**: for the listing `{b.txt (file), A (dir, containing
c.txt)}` the tree renders (sorted, directories first) `A/`, `c.txt`, `b.txt`,
while the content blob serializes the *unsorted* listing order: the section
for `b.txt` precedes the one for `A/c.txt`.  The file order of the two
outputs differs. -/
theorem claim_c3_counterexample :
    (sectionsList (fun s => s)
        [Item.file "b.txt" 1 (.ok "x"),
         Item.dir "A" (some [Item.file "c.txt" 1 (.ok "y")])] "").map
        (fun s => basename s.1) = ["b.txt", "c.txt"] ∧
    treeFileNames (generateTree
        [Item.file "b.txt" 1 (.ok "x"),
         Item.dir "A" (some [Item.file "c.txt" 1 (.ok "y")])] "") =
      ["c.txt", "b.txt"] ∧
    (["b.txt", "c.txt"] : List String) ≠ ["c.txt", "b.txt"] := by
  refine ⟨?_, ?_, by decide⟩
  · simp only [sectionsList, childPath, List.map_append, List.map_cons,
      List.map_nil]
    decide
  · have hba : ¬ entryLE (Item.file "b.txt" 1 (.ok "x"))
        (Item.dir "A" (some [Item.file "c.txt" 1 (.ok "y")])) := by
      decide
    have := hba
    simp only [generateTree, treeLoop, sortEntries, List.insertionSort,
      List.orderedInsert, if_neg hba, indentOf, childPath]
    decide

/-- **C3 amended**: the recorded section names of the content blob are, in
order, exactly the depth-first *listing-order* file paths of the traversal
(failed directories skipped) — `_generateContent` never sorts, so the order
agrees with the tree's only when the listing happens to be sorted. -/
theorem claim_c3_content_order (dec : String → String) (items : List Item)
    (hg : goodEntries dec items = true) :
    (parseSections (generateContent dec items "").1).map Prod.fst =
      dfsFilePaths items "" := by
  rw [parseSections_generateContent dec items hg, List.map_map]
  have hcomp : (Prod.fst ∘ fun s : String × String => (s.1, jsTrim s.2)) =
      Prod.fst := rfl
  rw [hcomp]
  exact sectionsList_fst dec items ""

/-- Witness for C3 on a concrete two-file listing. -/
theorem claim_c3_content_order_witness :
    (parseSections (generateContent (fun s => s)
        [Item.file "b.txt" 1 (.ok "x"), Item.file "a.txt" 1 (.ok "y")] "").1).map
      Prod.fst =
      dfsFilePaths [Item.file "b.txt" 1 (.ok "x"),
        Item.file "a.txt" 1 (.ok "y")] "" :=
  claim_c3_content_order (fun s => s)
    [Item.file "b.txt" 1 (.ok "x"), Item.file "a.txt" 1 (.ok "y")]
    (by simp [goodEntries, isBinaryFile]; decide)

/-- **C10 counterexample**: output sections do *not* always appear in
requested-path order.  The result object is a JS object, and
`Object.entries` lists canonical array-index keys such as `"0"` first: with
sections `b.txt` and `0` both present and the request `["b.txt", "0"]`, the
output puts the section for `"0"` before the one for `"b.txt"`. -/
theorem claim_c10_counterexample :
    getFilesContent (renderChunks [("b.txt", "x"), ("0", "y")]) ["b.txt", "0"] =
      sectionHeader "0" ++ "y" ++ "\n\n" ++ sectionHeader "b.txt" ++ "x" := by
  have hps : parseSections (renderChunks [("b.txt", "x"), ("0", "y")]) =
      [("b.txt", "x"), ("0", "y")] := by
    have h := parseScan_renderChunks [("b.txt", "x"), ("0", "y")] (by decide)
    unfold parseSections
    rw [h]
    decide
  unfold getFilesContent
  rw [hps, buildResult_eq, dedupFirst_nodup (by decide)]
  decide

/-- **C10 amended**: when no requested path is a canonical array-index
string, the extraction result equals the specification-side description:
one slot per *distinct* requested path (duplicates collapse to the first
occurrence), in request order, each matched slot re-wrapped under a header
naming the requested path exactly as given, blank-line separated, with the
sentinel on an all-miss. -/
theorem claim_c10_result_keying (blob : String) (paths : List String)
    (h : ∀ p ∈ paths, isArrayIndex p = false) :
    getFilesContent blob paths = extractSpec blob paths :=
  getFilesContent_eq_extractSpec blob paths h

/-- Witness for C10 on a concrete request list. -/
theorem claim_c10_result_keying_witness :
    getFilesContent "" ["a.txt", "a.txt", "b.txt"] =
      extractSpec "" ["a.txt", "a.txt", "b.txt"] :=
  claim_c10_result_keying "" ["a.txt", "a.txt", "b.txt"] (by decide)

/-- **C1 counterexample**: with two serialized files of equal basename —
`a/b.txt` (body `one`) and `b.txt` (body `two`) — extracting the full path
`a/b.txt` does not reproduce its body: the request also matches the later
section `b.txt` (the request ends in `/b.txt`), and the scan loop's last
match wins, returning `two`. -/
theorem claim_c1_counterexample :
    getFilesContent (generateContent (fun s => s)
        [Item.dir "a" (some [Item.file "b.txt" 1 (.ok "one")]),
         Item.file "b.txt" 1 (.ok "two")] "").1 ["a/b.txt"] =
      sectionHeader "a/b.txt" ++ "two" := by
  have hg : goodEntries (fun s => s)
      [Item.dir "a" (some [Item.file "b.txt" 1 (.ok "one")]),
       Item.file "b.txt" 1 (.ok "two")] = true := by
    simp [goodEntries, isBinaryFile]
    decide
  have hps := parseSections_generateContent (fun s => s)
    [Item.dir "a" (some [Item.file "b.txt" 1 (.ok "one")]),
     Item.file "b.txt" 1 (.ok "two")] hg
  have hsl : sectionsList (fun s => s)
      [Item.dir "a" (some [Item.file "b.txt" 1 (.ok "one")]),
       Item.file "b.txt" 1 (.ok "two")] "" =
      [("a/b.txt", "one"), ("b.txt", "two")] := by
    simp only [sectionsList, childPath, List.append_nil, List.nil_append]
    decide
  rw [hsl] at hps
  have hps' : parseSections (generateContent (fun s => s)
      [Item.dir "a" (some [Item.file "b.txt" 1 (.ok "one")]),
       Item.file "b.txt" 1 (.ok "two")] "").1 =
      [("a/b.txt", "one"), ("b.txt", "two")] := by
    rw [hps]
    decide
  unfold getFilesContent
  rw [hps', buildResult_eq, dedupFirst_nodup (by decide)]
  decide

/-- **C1 amended**: round-trip holds per requested full path when,
additionally, the serialized files' basenames are pairwise distinct: for any
section `(p, b)` the serializer emits, extracting `p` from the blob returns
exactly the trimmed body `b` re-wrapped under the same three-line header
form naming `p`. -/
theorem claim_c1_round_trip (dec : String → String) (items : List Item)
    (p b : String)
    (hg : goodEntries dec items = true)
    (hpair : ((sectionsList dec items "").map Prod.fst).Pairwise
      (fun a b => basename a ≠ basename b))
    (hmem : (p, b) ∈ sectionsList dec items "") :
    getFilesContent (generateContent dec items "").1 [p] =
      sectionHeader p ++ jsTrim b := by
  have hps := parseSections_generateContent dec items hg
  unfold getFilesContent
  rw [hps, buildResult_eq]
  rw [dedupFirst_nodup (by simp)]
  have hmem' : (p, jsTrim b) ∈ (sectionsList dec items "").map
      (fun s => (s.1, jsTrim s.2)) :=
    List.mem_map.mpr ⟨(p, b), hmem, rfl⟩
  have hpair' : (((sectionsList dec items "").map
      (fun s => (s.1, jsTrim s.2))).map Prod.fst).Pairwise
      (fun a b => basename a ≠ basename b) := by
    rw [List.map_map]
    exact hpair
  have hmf := matchFold_unique hmem' (pairwise_unique_match hpair' hmem')
    (by simp [matchRule])
  simp only [List.map_cons, List.map_nil, hmf]
  rw [orderEntries_singleton, renderEntries_single_some]
  rw [if_neg (sectionHeader_append_ne_empty p (jsTrim b))]

/-- Witness for C1 on a one-file listing. -/
theorem claim_c1_round_trip_witness :
    getFilesContent (generateContent (fun s => s)
        [Item.file "x.txt" 1 (.ok "hi")] "").1 ["x.txt"] =
      sectionHeader "x.txt" ++ jsTrim "hi" :=
  claim_c1_round_trip (fun s => s) [Item.file "x.txt" 1 (.ok "hi")] "x.txt" "hi"
    (by simp [goodEntries, isBinaryFile]; decide)
    (by simp only [sectionsList, childPath, List.append_nil, List.nil_append]
        decide)
    (by simp only [sectionsList, childPath, List.append_nil, List.nil_append]
        decide)

end GitIngest
